import Mathlib

/-!
# Verification of the contact-directory program (`main.py`)

Shallow embedding of the core of the program: the field validators
(`Phone.validate`, `Birthday.validate`), the per-contact `Record`, the
`AddressBook` keyed collection (a Python dict, modelled as an
insertion-ordered association list), the upcoming-birthday query and the
snapshot round trip, together with the command handlers `add_contact`,
`change_contact` and `add_birthday`.

Modelling conventions:
* Python strings are modelled as Lean `String`s via their character lists;
  the regex class `\x5cd` is read over ASCII digits (`Char.isDigit`).
* `datetime` values produced by `strptime('%d.%m.%Y')` carry a zero time
  component, so they are modelled as calendar dates (`Date`); the program's
  `datetime.today()` is modelled as a `today : Date` parameter (midnight),
  and `(a - b).days` for two midnight datetimes is the difference of their
  proleptic-Gregorian ordinals.
* Exceptions (`ValueError`) are modelled with `Except String`; the
  `input_error` decorator's catch-and-report behaviour is folded into the
  command handlers, which return the unchanged book together with the
  message.
-/

/-- A proleptic Gregorian calendar date (the payload of a Python
`datetime` whose time component is zero). -/
structure Date where
  year : Nat
  month : Nat
  day : Nat
deriving DecidableEq, Repr

/-- Gregorian leap-year test, as in Python's `calendar.isleap` /
`datetime`'s internal `_is_leap`. -/
def isLeap (y : Nat) : Bool :=
  (y % 4 == 0 && y % 100 != 0) || y % 400 == 0

/-- Number of days in month `m` of year `y` (months numbered 1..12). -/
def daysInMonth (y m : Nat) : Nat :=
  if m = 2 then (if isLeap y then 29 else 28)
  else if m = 4 || m = 6 || m = 9 || m = 11 then 30
  else 31

/-- Validity of a date, exactly the constraints `datetime.__new__` checks:
`MINYEAR <= year <= MAXYEAR`, `1 <= month <= 12`,
`1 <= day <= days_in_month(year, month)`. -/
def Date.valid (d : Date) : Bool :=
  1 ≤ d.year && d.year ≤ 9999 &&
  1 ≤ d.month && d.month ≤ 12 &&
  1 ≤ d.day && d.day ≤ daysInMonth d.year d.month

/-- Days before January 1 of year `y` in the proleptic Gregorian calendar
(`datetime`'s `_days_before_year`). -/
def daysBeforeYear (y : Nat) : Nat :=
  365 * (y - 1) + (y - 1) / 4 - (y - 1) / 100 + (y - 1) / 400

/-- Days in year `y` strictly before month `m` (months 1..12). -/
def daysBeforeMonth (y m : Nat) : Nat :=
  (List.range (m - 1)).foldl (fun acc i => acc + daysInMonth y (i + 1)) 0

/-- The proleptic Gregorian ordinal of a date (`datetime.toordinal`):
01.01.0001 has ordinal 1.  The difference of two ordinals is
`(a - b).days` for the corresponding midnight datetimes. -/
def Date.toOrdinal (d : Date) : Nat :=
  daysBeforeYear d.year + daysBeforeMonth d.year d.month + d.day

namespace Phone

/-- Success condition of `re.match(r'^\x5cd{10}$', value)`: ten digits,
optionally followed by one final newline (in Python, `$` also matches just
before a trailing newline, so an 11-character string ending in a newline is
accepted). -/
def matchTen (cs : List Char) : Bool :=
  (cs.take 10).all Char.isDigit &&
  (cs.length == 10 || (cs.length == 11 && cs.getLast? == some '\n'))

/-- `Phone.validate`: returns the input string unchanged when the regex
matches, otherwise raises `ValueError("Phone number must be 10 digits")`. -/
def validate (value : String) : Except String String :=
  if matchTen value.toList then Except.ok value
  else Except.error "Phone number must be 10 digits"

end Phone

namespace Birthday

/-- Numeric value of an ASCII digit character. -/
def digitVal (c : Char) : Nat := c.toNat - 48

/-- Numeric value of a digit string (most significant first). -/
def natOfDigits (cs : List Char) : Nat :=
  cs.foldl (fun acc c => 10 * acc + digitVal c) 0

/-- The alternatives of the CPython `_strptime` day group
`(3[01]|[12]\x5cd|0[1-9]|[1-9])`, in the regex's order: each entry is the
parsed value paired with the remaining input.  Listing every alternative
models the regex engine's backtracking. -/
def dayAlts : List Char → List (Nat × List Char)
  | c1 :: c2 :: rest =>
    (if c1 = '3' ∧ (c2 = '0' ∨ c2 = '1') then [(30 + digitVal c2, rest)] else []) ++
    (if (c1 = '1' ∨ c1 = '2') ∧ c2.isDigit then
      [(10 * digitVal c1 + digitVal c2, rest)] else []) ++
    (if c1 = '0' ∧ ('1' ≤ c2 ∧ c2 ≤ '9') then [(digitVal c2, rest)] else []) ++
    (if '1' ≤ c1 ∧ c1 ≤ '9' then [(digitVal c1, c2 :: rest)] else [])
  | [c1] => if '1' ≤ c1 ∧ c1 ≤ '9' then [(digitVal c1, [])] else []
  | [] => []

/-- The alternatives of the CPython `_strptime` month group
`(1[0-2]|0[1-9]|[1-9])`, in the regex's order. -/
def monthAlts : List Char → List (Nat × List Char)
  | c1 :: c2 :: rest =>
    (if c1 = '1' ∧ ('0' ≤ c2 ∧ c2 ≤ '2') then [(10 + digitVal c2, rest)] else []) ++
    (if c1 = '0' ∧ ('1' ≤ c2 ∧ c2 ≤ '9') then [(digitVal c2, rest)] else []) ++
    (if '1' ≤ c1 ∧ c1 ≤ '9' then [(digitVal c1, c2 :: rest)] else [])
  | [c1] => if '1' ≤ c1 ∧ c1 ≤ '9' then [(digitVal c1, [])] else []
  | [] => []

/-- The CPython `_strptime` year group `(\x5cd\x5cd\x5cd\x5cd)` followed by
end of input (`strptime` rejects unconverted trailing data). -/
def yearEnd : List Char → Option Nat
  | [a, b, c, d] =>
    if a.isDigit ∧ b.isDigit ∧ c.isDigit ∧ d.isDigit then
      some (natOfDigits [a, b, c, d])
    else none
  | _ => none

/-- First successful continuation over a list of alternatives — the
regex engine's ordered-alternation-with-backtracking discipline. -/
def firstSome {α β : Type} : List α → (α → Option β) → Option β
  | [], _ => none
  | x :: xs, f => match f x with
    | some y => some y
    | none => firstSome xs f

/-- Full match of the `_strptime` regex for the format `'%d.%m.%Y'`:
day group, literal dot, month group, literal dot, 4-digit year, end of
input.  Returns the captured (day, month, year) numbers. -/
def matchDMY (cs : List Char) : Option (Nat × Nat × Nat) :=
  firstSome (dayAlts cs) fun dc =>
    match dc.2 with
    | '.' :: cs2 =>
      firstSome (monthAlts cs2) fun mc =>
        match mc.2 with
        | '.' :: cs3 =>
          match yearEnd cs3 with
          | some y => some (dc.1, mc.1, y)
          | none => none
        | _ => none
    | _ => none

/-- `Birthday.validate`: `datetime.strptime(value, '%d.%m.%Y')` — regex
match of the format, then construction of the `datetime`, which checks that
the numbers form a real calendar date; any `ValueError` is re-raised as
`ValueError("Invalid date format. Use DD.MM.YYYY")`. -/
def validate (value : String) : Except String Date :=
  match matchDMY value.toList with
  | some (d, m, y) =>
    if Date.valid ⟨y, m, d⟩ then Except.ok ⟨y, m, d⟩
    else Except.error "Invalid date format. Use DD.MM.YYYY"
  | none => Except.error "Invalid date format. Use DD.MM.YYYY"

end Birthday

/-- One contact: the `value` of its `Name`, the `value`s of its `Phone`
objects in list order, and its optional `Birthday` date. -/
structure Record where
  name : String
  phones : List String
  birthday : Option Date
deriving DecidableEq, Repr

namespace Record

/-- `Record.__init__(name)`: a record with no phones and no birthday. -/
def mk0 (name : String) : Record := ⟨name, [], none⟩

/-- `Record.add_phone`: validates (`Phone(phone)`) and appends; on
validation failure the `ValueError` propagates and the record is
unchanged. -/
def add_phone (r : Record) (phone : String) : Except String Record :=
  (Phone.validate phone).map fun v => { r with phones := r.phones ++ [v] }

/-- Helper for `Record.remove_phone`: removes the first occurrence of
`v`, reporting whether one was found. -/
def removeFirst (v : String) : List String → Bool × List String
  | [] => (false, [])
  | p :: rest =>
    if p = v then (true, rest)
    else
      let pr := removeFirst v rest
      (pr.1, p :: pr.2)

/-- `Record.remove_phone`: removes the first `Phone` whose value equals
`phone`, returning whether one was found. -/
def remove_phone (r : Record) (phone : String) : Bool × Record :=
  let pr := removeFirst phone r.phones
  (pr.1, { r with phones := pr.2 })

/-- Helper for `Record.edit_phone` on the phone list: scan for the first
occurrence of `old`; at the first match, construct `Phone(new)` (which may
raise) and replace that entry's value; if the scan finds no match, return
`false` with the list unchanged — `Phone(new)` is never constructed in
that case. -/
def editList (old new : String) : List String → Except String (Bool × List String)
  | [] => Except.ok (false, [])
  | p :: rest =>
    if p = old then
      (Phone.validate new).map fun v => (true, v :: rest)
    else
      (editList old new rest).map fun pr => (pr.1, p :: pr.2)

/-- `Record.edit_phone old new`. -/
def edit_phone (r : Record) (old new : String) : Except String (Bool × Record) :=
  (editList old new r.phones).map fun pr => (pr.1, { r with phones := pr.2 })

/-- `Record.find_phone`. -/
def find_phone (r : Record) (phone : String) : Option String :=
  r.phones.find? (· = phone)

/-- `Record.add_birthday`: validates and overwrites the stored birthday. -/
def add_birthday (r : Record) (birthday : String) : Except String Record :=
  (Birthday.validate birthday).map fun d => { r with birthday := some d }

end Record

/-- The `AddressBook`'s `data` dict: an insertion-ordered association list
from contact name to `Record` (Python dicts preserve insertion order). -/
abbrev AddressBook : Type := List (String × Record)

namespace AddressBook

/-- The empty book (`AddressBook()`). -/
def empty : AddressBook := []

/-- Python dict assignment `self.data[k] = r`: overwrite in place if the
key is present (position preserved), otherwise append. -/
def dictSet : AddressBook → String → Record → AddressBook
  | [], k, r => [(k, r)]
  | e :: rest, k, r =>
    if e.1 = k then (k, r) :: rest else e :: dictSet rest k r

/-- `AddressBook.add_record`: stores the record under its own name. -/
def add_record (book : AddressBook) (r : Record) : AddressBook :=
  dictSet book r.name r

/-- `AddressBook.find`: `self.data.get(name, None)`. -/
def find (book : AddressBook) (name : String) : Option Record :=
  (List.find? (fun e => e.1 = name) book).map (·.2)

/-- `AddressBook.delete`: `del self.data[name]` if present, reporting
whether the entry existed. -/
def delete : AddressBook → String → Bool × AddressBook
  | [], _ => (false, [])
  | e :: rest, name =>
    if e.1 = name then (true, rest)
    else
      let pr := delete rest name
      (pr.1, e :: pr.2)

/-- The list of records, in dict iteration (= insertion) order:
`self.data.values()`. -/
def values (book : AddressBook) : List Record := book.map (·.2)

/-- Body of the loop in `AddressBook.get_upcoming_birthdays`: for each
record with a birthday, build `birthday.replace(year=today.year)` —
which raises a `ValueError` when the resulting date is invalid (a
February 29 birthday in a non-leap target year) — then keep the record
iff `0 <= (candidate - today).days <= 7`. -/
def upcomingAux (today : Date) : List Record → Except String (List Record)
  | [] => Except.ok []
  | r :: rest =>
    match r.birthday with
    | none => upcomingAux today rest
    | some b =>
      let cand : Date := ⟨today.year, b.month, b.day⟩
      if cand.valid then
        if 0 ≤ (cand.toOrdinal : Int) - (today.toOrdinal : Int) ∧
            (cand.toOrdinal : Int) - (today.toOrdinal : Int) ≤ 7 then
          (upcomingAux today rest).map (r :: ·)
        else upcomingAux today rest
      else Except.error "day is out of range for month"

/-- `AddressBook.get_upcoming_birthdays`, with `datetime.today()`
modelled as the parameter `today`. -/
def get_upcoming_birthdays (book : AddressBook) (today : Date) :
    Except String (List Record) :=
  upcomingAux today book.values

end AddressBook

/-- `add_contact(args, book)` with `args = [name, phone]`: find the
record; if present, `add_phone` mutates it in place; otherwise a fresh
`Record(name)` gets the phone and is inserted.  A `ValueError` from phone
validation is caught by `input_error`, which leaves the book untouched and
returns the exception text. -/
def add_contact (name phone : String) (book : AddressBook) :
    AddressBook × String :=
  match book.find name with
  | some r =>
    match r.add_phone phone with
    | Except.ok r2 => (book.dictSet name r2, "Contact added.")
    | Except.error e => (book, e)
  | none =>
    match (Record.mk0 name).add_phone phone with
    | Except.ok r2 => (book.add_record r2, "Contact added.")
    | Except.error e => (book, e)

/-- `change_contact(args, book)` with `args = [name, old, new]`: edit the
found record's phone list in place; a missing name raises `KeyError`,
reported as "Contact not found."; a `ValueError` from validating the new
phone is reported as its text; in both failure cases the book is
unchanged. -/
def change_contact (name old new : String) (book : AddressBook) :
    AddressBook × String :=
  match book.find name with
  | some r =>
    match r.edit_phone old new with
    | Except.ok (true, r2) => (book.dictSet name r2, "Contact updated.")
    | Except.ok (false, _) => (book, "Phone number not found.")
    | Except.error e => (book, e)
  | none => (book, "Contact not found.")

/-- `add_birthday(args, book)` with `args = [name, birthday]`: set the
found record's birthday in place; missing name or invalid date leaves the
book unchanged with the corresponding message. -/
def add_birthday (name birthday : String) (book : AddressBook) :
    AddressBook × String :=
  match book.find name with
  | some r =>
    match r.add_birthday birthday with
    | Except.ok r2 => (book.dictSet name r2, "Birthday added.")
    | Except.error e => (book, e)
  | none => (book, "Contact not found.")

/-- `Record.remove_phone` invoked on the record stored under `name` (the
only way the operation is reached from the book): the mutation happens in
place, so the updated record sits at the same key. -/
def remove_phone_op (name phone : String) (book : AddressBook) : AddressBook :=
  match book.find name with
  | some r => book.dictSet name (r.remove_phone phone).2
  | none => book

/-- The snapshot shape that persistence must round-trip (spec section 6):
per record its name, its phone values verbatim and in order, and its
optional birthday.  `pickle.dump`/`pickle.load` serialize the live object
graph, which for this data model is exactly this field set. -/
def Snapshot : Type := List (String × List String × Option Date)

/-- `save_data`: the snapshot written for a book — one entry per stored
record, in dict order. -/
def save_data (book : AddressBook) : Snapshot :=
  book.map fun e => (e.2.name, e.2.phones, e.2.birthday)

/-- `load_data` applied to an existing snapshot: rebuilds the book,
keying each rebuilt record under its name (dict keys are restored
alongside the records; under the book invariant the key is the record's
name). -/
def load_data (s : Snapshot) : AddressBook :=
  s.map fun e => (e.1, ⟨e.1, e.2.1, e.2.2⟩)

/-- The `AddressBook` representation invariant maintained by the running
program: dict keys are pairwise distinct, and every record is stored
under its own name. -/
def BookInv (book : AddressBook) : Prop :=
  (book.map (·.1)).Nodup ∧ ∀ e ∈ book, (e : String × Record).2.name = e.1

/-- The directory states reachable through the public mutating
operations, starting from the empty book the program begins with. -/
inductive Reachable : AddressBook → Prop
  | empty : Reachable AddressBook.empty
  | add (name phone : String) {b : AddressBook} :
      Reachable b → Reachable (add_contact name phone b).1
  | change (name old new : String) {b : AddressBook} :
      Reachable b → Reachable (change_contact name old new b).1
  | setBday (name s : String) {b : AddressBook} :
      Reachable b → Reachable (add_birthday name s b).1
  | remove (name : String) {b : AddressBook} :
      Reachable b → Reachable (b.delete name).2
  | rmPhone (name phone : String) {b : AddressBook} :
      Reachable b → Reachable (remove_phone_op name phone b)

/-- The claim's `delta_days`: `(candidate - today).days` where `candidate`
is the stored birthday `b` with its year replaced by `today.year`. -/
def deltaDays (today b : Date) : Int :=
  ((Date.mk today.year b.month b.day).toOrdinal : Int) - (today.toOrdinal : Int)

/-- The per-record inclusion test of `get_upcoming_birthdays`: the record
has a birthday and `0 <= delta_days <= 7`. -/
def birthdayInWindow (today : Date) (r : Record) : Bool :=
  match r.birthday with
  | none => false
  | some b => decide (0 ≤ deltaDays today b ∧ deltaDays today b ≤ 7)

/-- `strftime`'s `%d` / `%m`: the number zero-padded to two digits. -/
def fmt2 (n : Nat) : String :=
  if n < 10 then "0" ++ toString n else toString n

/-- `value.strftime('%d.%m.%Y')`: zero-padded 2-digit day and month;
`%Y` (via the C library) prints the year unpadded. -/
def strftimeDMY (d : Date) : String :=
  fmt2 d.day ++ "." ++ fmt2 d.month ++ "." ++ toString d.year

/-- The acceptance pattern the spec claims for `Birthday.validate`,
translated from its words: a 2-digit day, a dot, a 2-digit month, a dot
and a 4-digit year, all digits, denoting a real calendar date. -/
def specPatternDDMMYYYY (s : String) : Bool :=
  match s.toList with
  | [d1, d2, '.', m1, m2, '.', y1, y2, y3, y4] =>
    [d1, d2, m1, m2, y1, y2, y3, y4].all Char.isDigit &&
    Date.valid ⟨Birthday.natOfDigits [y1, y2, y3, y4],
      Birthday.natOfDigits [m1, m2], Birthday.natOfDigits [d1, d2]⟩
  | _ => false

/-- The acceptance condition `Birthday.validate` actually has: a 1- or
2-digit day (nonzero value), a dot, a 1- or 2-digit month (nonzero
value), a dot and an exactly 4-digit year, all digits, denoting a real
calendar date. -/
def acceptsDMY (s : String) : Prop :=
  ∃ ds ms ys : List Char,
    s.toList = ds ++ '.' :: (ms ++ '.' :: ys) ∧
    ds.all Char.isDigit = true ∧ (ds.length = 1 ∨ ds.length = 2) ∧
    1 ≤ Birthday.natOfDigits ds ∧
    ms.all Char.isDigit = true ∧ (ms.length = 1 ∨ ms.length = 2) ∧
    1 ≤ Birthday.natOfDigits ms ∧
    ys.all Char.isDigit = true ∧ ys.length = 4 ∧
    Date.valid ⟨Birthday.natOfDigits ys, Birthday.natOfDigits ms,
      Birthday.natOfDigits ds⟩ = true

/-! ## Helper lemmas -/

theorem editList_of_not_mem (old new : String) (ps : List String)
    (h : old ∉ ps) : Record.editList old new ps = Except.ok (false, ps) := by
  induction ps with
  | nil => rfl
  | cons p rest ih =>
    have hne : p ≠ old := fun hpe => h (hpe ▸ List.mem_cons_self p rest)
    have hrest : old ∉ rest := fun hm => h (List.mem_cons_of_mem p hm)
    simp [Record.editList, hne, ih hrest, Except.map]

theorem editList_split (old new : String) (l1 l2 : List String)
    (h : old ∉ l1) :
    Record.editList old new (l1 ++ old :: l2) =
      (Phone.validate new).map fun v => (true, l1 ++ v :: l2) := by
  induction l1 with
  | nil => simp [Record.editList, Except.map]
  | cons p rest ih =>
    have hne : p ≠ old := fun hpe => h (hpe ▸ List.mem_cons_self p rest)
    have hrest : old ∉ rest := fun hm => h (List.mem_cons_of_mem p hm)
    cases hv : Phone.validate new with
    | ok v => simp [Record.editList, hne, ih hrest, hv, Except.map]
    | error e => simp [Record.editList, hne, ih hrest, hv, Except.map]

theorem editList_error_of_mem (old new e : String) (ps : List String)
    (he : Phone.validate new = Except.error e) (h : old ∈ ps) :
    Record.editList old new ps = Except.error e := by
  induction ps with
  | nil => cases h
  | cons p rest ih =>
    by_cases hpe : p = old
    · simp [Record.editList, hpe, he, Except.map]
    · have hrest : old ∈ rest := by
        cases List.mem_cons.mp h with
        | inl hh => exact absurd hh.symm hpe
        | inr hh => exact hh
      simp [Record.editList, hpe, ih hrest, Except.map]

/-! ## Claim theorems: record-level phone editing -/

/-- C6: `edit_phone` on a non-present old value reports not-found and
leaves the phone list unchanged; when the old value occurs, with a valid
new value it replaces exactly the first occurrence in place, keeping the
length, the positions and every other entry. -/
theorem edit_phone_frame (r : Record) (old new : String) :
    (old ∉ r.phones → r.edit_phone old new = Except.ok (false, r)) ∧
    (∀ l1 l2, r.phones = l1 ++ old :: l2 → old ∉ l1 →
      Phone.validate new = Except.ok new →
      r.edit_phone old new =
        Except.ok (true, { r with phones := l1 ++ new :: l2 })) := by
  constructor
  · intro h
    simp [Record.edit_phone, editList_of_not_mem old new r.phones h, Except.map]
  · intro l1 l2 hsplit h1 hv
    simp [Record.edit_phone, hsplit, editList_split old new l1 l2 h1, hv, Except.map]

/-- Witness for C6: in the record for "a" with phones
`["0555555555", "0666666666"]`, editing `"0666666666"` to
`"0777777777"` replaces exactly the second entry; editing a phone that is
not in the list reports `false` and changes nothing. -/
theorem edit_phone_frame_witness :
    Record.edit_phone ⟨"a", ["0555555555", "0666666666"], none⟩
        "0666666666" "0777777777" =
      Except.ok (true, ⟨"a", ["0555555555", "0777777777"], none⟩) ∧
    Record.edit_phone ⟨"a", ["0555555555", "0666666666"], none⟩
        "0888888888" "0777777777" =
      Except.ok (false, ⟨"a", ["0555555555", "0666666666"], none⟩) := by
  constructor
  · exact (edit_phone_frame ⟨"a", ["0555555555", "0666666666"], none⟩
      "0666666666" "0777777777").2 ["0555555555"] [] rfl (by decide) rfl
  · exact (edit_phone_frame ⟨"a", ["0555555555", "0666666666"], none⟩
      "0888888888" "0777777777").1 (by decide)

/-- C7 counterexample: with an empty phone list and the invalid new value
`"bad"`, `edit_phone` does not fail — it returns not-found — even though
`Phone.validate "bad"` would raise.  The claim's "fails with
InvalidFormat regardless of whether old_value is present" is false. -/
theorem edit_phone_skips_validation_when_absent :
    Record.edit_phone ⟨"a", [], none⟩ "0000000000" "bad" =
      Except.ok (false, ⟨"a", [], none⟩) ∧
    Phone.validate "bad" = Except.error "Phone number must be 10 digits" := by
  constructor
  · rfl
  · rfl

/-- C7 amended: `edit_phone` validates `new` only upon finding a match:
with an invalid `new`, it fails iff `old` occurs in the phone list, and
otherwise returns not-found with the record unchanged. -/
theorem edit_phone_validation_on_match (r : Record) (old new e : String)
    (he : Phone.validate new = Except.error e) :
    (old ∈ r.phones → r.edit_phone old new = Except.error e) ∧
    (old ∉ r.phones → r.edit_phone old new = Except.ok (false, r)) := by
  constructor
  · intro h
    simp [Record.edit_phone, editList_error_of_mem old new e r.phones he h, Except.map]
  · intro h
    simp [Record.edit_phone, editList_of_not_mem old new r.phones h, Except.map]

/-- Witness for the amended C7 at a concrete record. -/
theorem edit_phone_validation_on_match_witness :
    Record.edit_phone ⟨"a", ["0555555555"], none⟩ "0555555555" "bad" =
      Except.error "Phone number must be 10 digits" ∧
    Record.edit_phone ⟨"a", ["0555555555"], none⟩ "0666666666" "bad" =
      Except.ok (false, ⟨"a", ["0555555555"], none⟩) := by
  constructor
  · exact (edit_phone_validation_on_match ⟨"a", ["0555555555"], none⟩
      "0555555555" "bad" "Phone number must be 10 digits" rfl).1
      (by decide)
  · exact (edit_phone_validation_on_match ⟨"a", ["0555555555"], none⟩
      "0666666666" "bad" "Phone number must be 10 digits" rfl).2
      (by decide)

/-! ## Claim theorems: failed validation is atomic (C9) -/

/-- C9: when the phone text fails validation, `add_contact` leaves the
book exactly as it was — no entry is inserted for an absent name, and a
present record's phone list is untouched. -/
theorem add_contact_invalid_phone_unchanged (book : AddressBook)
    (name phone e : String) (he : Phone.validate phone = Except.error e) :
    (add_contact name phone book).1 = book := by
  cases hf : book.find name with
  | some r => simp [add_contact, hf, Record.add_phone, he, Except.map]
  | none => simp [add_contact, hf, Record.add_phone, he, Except.map]

/-- Witness for C9: adding `bob` with the 9-digit phone `"012345678"`
leaves a one-entry book unchanged. -/
theorem add_contact_invalid_phone_unchanged_witness :
    (add_contact "bob" "012345678"
      [("alice", ⟨"alice", ["0123456789"], none⟩)]).1 =
      [("alice", ⟨"alice", ["0123456789"], none⟩)] :=
  add_contact_invalid_phone_unchanged
    [("alice", ⟨"alice", ["0123456789"], none⟩)] "bob" "012345678"
    "Phone number must be 10 digits" rfl

/-! ## Claim theorems: snapshot round trip (C5) -/

/-- C5: saving a book and loading the snapshot back reproduces the book —
the same names, each with the same phone list verbatim and in order and
the same optional birthday.  (The on-disk `pickle` encoding is modelled
by the snapshot shape of spec section 6: per record its name, phones and
birthday; the book invariant makes the dict key recoverable as the
record's name.) -/
theorem save_load_roundtrip (book : AddressBook) (h : BookInv book) :
    load_data (save_data book) = book := by
  induction book with
  | nil => rfl
  | cons e rest ih =>
    obtain ⟨k, n, ps, bd⟩ := e
    have hname : n = k :=
      h.2 (k, ⟨n, ps, bd⟩) (List.mem_cons_self (k, ⟨n, ps, bd⟩) rest)
    have hrest : BookInv rest := by
      refine ⟨?_, fun x hx => h.2 x (List.mem_cons_of_mem (k, ⟨n, ps, bd⟩) hx)⟩
      have := h.1
      simp only [List.map_cons, List.nodup_cons] at this
      exact this.2
    subst hname
    calc load_data (save_data ((n, ⟨n, ps, bd⟩) :: rest))
        = (n, ⟨n, ps, bd⟩) :: load_data (save_data rest) := rfl
      _ = (n, ⟨n, ps, bd⟩) :: rest := by rw [ih hrest]

/-! ## Dict lemmas -/

theorem dictSet_find_self (book : AddressBook) (k : String) (r : Record) :
    (book.dictSet k r).find k = some r := by
  induction book with
  | nil => simp [AddressBook.dictSet, AddressBook.find]
  | cons e rest ih =>
    by_cases he : e.1 = k
    · simp [AddressBook.dictSet, he, AddressBook.find]
    · simp only [AddressBook.dictSet, if_neg he]
      simpa [AddressBook.find, List.find?, he] using ih

theorem mem_dictSet (book : AddressBook) (k : String) (r : Record)
    (x : String × Record) (hx : x ∈ book.dictSet k r) :
    x = (k, r) ∨ x ∈ book := by
  induction book with
  | nil => simpa [AddressBook.dictSet] using hx
  | cons e rest ih =>
    by_cases he : e.1 = k
    · simp only [AddressBook.dictSet, if_pos he] at hx
      rcases List.mem_cons.mp hx with h | h
      · exact Or.inl h
      · exact Or.inr (List.mem_cons_of_mem e h)
    · simp only [AddressBook.dictSet, if_neg he] at hx
      rcases List.mem_cons.mp hx with h | h
      · exact Or.inr (h ▸ List.mem_cons_self e rest)
      · rcases ih h with h2 | h2
        · exact Or.inl h2
        · exact Or.inr (List.mem_cons_of_mem e h2)

theorem mem_keys_dictSet (book : AddressBook) (k : String) (r : Record)
    (x : String) (hx : x ∈ (book.dictSet k r).map (·.1)) :
    x ∈ book.map (·.1) ∨ x = k := by
  rcases List.mem_map.mp hx with ⟨e, he, hex⟩
  rcases mem_dictSet book k r e he with h | h
  · right
    rw [← hex, h]
  · left
    exact List.mem_map.mpr ⟨e, h, hex⟩

theorem keys_nodup_dictSet (book : AddressBook) (k : String) (r : Record)
    (h : (book.map (·.1)).Nodup) : ((book.dictSet k r).map (·.1)).Nodup := by
  induction book with
  | nil => simp [AddressBook.dictSet]
  | cons e rest ih =>
    simp only [List.map_cons, List.nodup_cons] at h
    by_cases he : e.1 = k
    · simp only [AddressBook.dictSet, if_pos he, List.map_cons, List.nodup_cons]
      exact ⟨he ▸ h.1, h.2⟩
    · simp only [AddressBook.dictSet, if_neg he, List.map_cons, List.nodup_cons]
      refine ⟨fun hmem => ?_, ih h.2⟩
      rcases mem_keys_dictSet rest k r e.1 hmem with h2 | h2
      · exact h.1 h2
      · exact he h2

theorem bookInv_dictSet (book : AddressBook) (k : String) (r : Record)
    (h : BookInv book) (hk : r.name = k) : BookInv (book.dictSet k r) := by
  refine ⟨keys_nodup_dictSet book k r h.1, fun e he => ?_⟩
  rcases mem_dictSet book k r e he with h2 | h2
  · rw [h2]
    exact hk
  · exact h.2 e h2

theorem find_name_eq (book : AddressBook) (k : String) (r : Record)
    (hinv : BookInv book) (h : book.find k = some r) : r.name = k := by
  unfold AddressBook.find at h
  cases hf : List.find? (fun e => e.1 = k) book with
  | none => rw [hf] at h; cases h
  | some e =>
    rw [hf] at h
    have hek : e.1 = k := by
      have := List.find?_some hf
      exact of_decide_eq_true this
    have hmem : e ∈ book := List.mem_of_find?_eq_some hf
    have : e.2 = r := by simpa using h
    rw [← this, hinv.2 e hmem, hek]

theorem keyCount_zero_of_find_none (book : AddressBook) (k : String)
    (h : book.find k = none) :
    book.countP (fun e => e.1 == k) = 0 := by
  unfold AddressBook.find at h
  cases hf : List.find? (fun e => e.1 = k) book with
  | some e => rw [hf] at h; cases h
  | none =>
    refine List.countP_eq_zero.mpr fun e he => ?_
    have := List.find?_eq_none.mp hf e he
    simpa using of_decide_eq_false (Bool.of_not_eq_true this)

theorem keyCount_le_one (book : AddressBook) (k : String)
    (h : (book.map (·.1)).Nodup) :
    book.countP (fun e => e.1 == k) ≤ 1 := by
  induction book with
  | nil => simp
  | cons e rest ih =>
    simp only [List.map_cons, List.nodup_cons] at h
    by_cases he : e.1 = k
    · have hzero : rest.countP (fun e => e.1 == k) = 0 := by
        refine List.countP_eq_zero.mpr fun x hx => ?_
        intro hxk
        apply h.1
        rw [he, ← (by simpa using hxk : x.1 = k)]
        exact List.mem_map.mpr ⟨x, hx, rfl⟩
      simp [List.countP_cons, he, hzero]
    · simpa [List.countP_cons, he] using ih h.2

theorem keyCount_pos_of_find_some (book : AddressBook) (k : String)
    (r : Record) (h : book.find k = some r) :
    1 ≤ book.countP (fun e => e.1 == k) := by
  unfold AddressBook.find at h
  cases hf : List.find? (fun e => e.1 = k) book with
  | none => rw [hf] at h; cases h
  | some e =>
    have hpe := List.find?_some hf
    have hek : e.1 = k := of_decide_eq_true hpe
    have hmem : e ∈ book := List.mem_of_find?_eq_some hf
    have : 0 < book.countP (fun e => e.1 == k) :=
      List.countP_pos_iff.mpr ⟨e, hmem, by simpa using hek⟩
    exact this

theorem keyCount_dictSet_of_find_none (book : AddressBook) (k : String)
    (r : Record) (h : book.find k = none) :
    (book.dictSet k r).countP (fun e => e.1 == k) =
      book.countP (fun e => e.1 == k) + 1 := by
  induction book with
  | nil => simp [AddressBook.dictSet]
  | cons e rest ih =>
    by_cases he : e.1 = k
    · exfalso
      unfold AddressBook.find at h
      simp [List.find?, he] at h
    · have hrest : AddressBook.find rest k = none := by
        unfold AddressBook.find at h ⊢
        simp only [List.find?_cons] at h
        split at h
        · cases h
        · exact h
      simp [AddressBook.dictSet, if_neg he, List.countP_cons, he, ih hrest]

theorem keyCount_dictSet_of_find_some (book : AddressBook) (k : String)
    (r r0 : Record) (h : book.find k = some r0) :
    (book.dictSet k r).countP (fun e => e.1 == k) =
      book.countP (fun e => e.1 == k) := by
  induction book with
  | nil => unfold AddressBook.find at h; cases h
  | cons e rest ih =>
    by_cases he : e.1 = k
    · simp [AddressBook.dictSet, if_pos he, List.countP_cons, he]
    · have hrest : AddressBook.find rest k = some r0 := by
        unfold AddressBook.find at h ⊢
        simp only [List.find?_cons] at h
        split at h
        · next heq => exact absurd (of_decide_eq_true heq) he
        · exact h
      simp [AddressBook.dictSet, if_neg he, List.countP_cons, he, ih hrest]

/-! ## Name preservation of record mutations -/

theorem add_phone_ok_name (r r2 : Record) (phone : String)
    (h : r.add_phone phone = Except.ok r2) : r2.name = r.name := by
  unfold Record.add_phone at h
  cases hv : Phone.validate phone with
  | ok v =>
    rw [hv] at h
    cases h
    rfl
  | error e => rw [hv] at h; cases h

theorem edit_phone_ok_name (r r2 : Record) (old new : String) (bl : Bool)
    (h : r.edit_phone old new = Except.ok (bl, r2)) : r2.name = r.name := by
  unfold Record.edit_phone at h
  cases hv : Record.editList old new r.phones with
  | ok pr =>
    rw [hv] at h
    cases h
    rfl
  | error e => rw [hv] at h; cases h

theorem add_birthday_ok_name (r r2 : Record) (s : String)
    (h : r.add_birthday s = Except.ok r2) : r2.name = r.name := by
  unfold Record.add_birthday at h
  cases hv : Birthday.validate s with
  | ok d =>
    rw [hv] at h
    cases h
    rfl
  | error e => rw [hv] at h; cases h

theorem delete_sublist (book : AddressBook) (k : String) :
    (book.delete k).2.Sublist book := by
  induction book with
  | nil => simp [AddressBook.delete]
  | cons e rest ih =>
    by_cases he : e.1 = k
    · simp only [AddressBook.delete, if_pos he]
      exact List.sublist_cons_self e rest
    · simpa [AddressBook.delete, he] using List.Sublist.cons₂ e ih

/-! ## Claim theorem: reachable-state invariant (C8) -/

/-- C8: in every directory state reachable through the public operations,
the contact names are pairwise-distinct keys — so each name keys at most
one entry — and every stored record sits under the key equal to its own
name. -/
theorem reachable_book_inv (book : AddressBook) (h : Reachable book) :
    BookInv book := by
  induction h with
  | empty => exact ⟨List.nodup_nil, fun e he => absurd he (List.not_mem_nil e)⟩
  | add name phone hb ih =>
    unfold add_contact
    cases hf : AddressBook.find _ name with
    | some r =>
      cases ha : r.add_phone phone with
      | ok r2 =>
        simpa [ha] using bookInv_dictSet _ name r2 ih
          ((add_phone_ok_name r r2 phone ha).trans (find_name_eq _ name r ih hf))
      | error e => simpa [ha] using ih
    | none =>
      cases ha : (Record.mk0 name).add_phone phone with
      | ok r2 =>
        have hn : r2.name = name := add_phone_ok_name _ r2 phone ha
        simpa [ha, AddressBook.add_record, hn] using
          bookInv_dictSet _ name r2 ih hn
      | error e => simpa [ha] using ih
  | change name old new hb ih =>
    unfold change_contact
    cases hf : AddressBook.find _ name with
    | some r =>
      cases ha : r.edit_phone old new with
      | ok pr =>
        cases pr with
        | mk bl r2 =>
          cases bl with
          | true =>
            simpa [ha] using bookInv_dictSet _ name r2 ih
              ((edit_phone_ok_name r r2 old new true ha).trans
                (find_name_eq _ name r ih hf))
          | false => simpa [ha] using ih
      | error e => simpa [ha] using ih
    | none => exact ih
  | setBday name s hb ih =>
    unfold add_birthday
    cases hf : AddressBook.find _ name with
    | some r =>
      cases ha : r.add_birthday s with
      | ok r2 =>
        simpa [ha] using bookInv_dictSet _ name r2 ih
          ((add_birthday_ok_name r r2 s ha).trans (find_name_eq _ name r ih hf))
      | error e => simpa [ha] using ih
    | none => exact ih
  | remove name hb ih =>
    rename_i b
    have hsub := delete_sublist b name
    exact ⟨(hsub.map (·.1)).nodup ih.1, fun e he => ih.2 e (hsub.subset he)⟩
  | rmPhone name phone hb ih =>
    unfold remove_phone_op
    cases hf : AddressBook.find _ name with
    | some r =>
      have hn : (r.remove_phone phone).2.name = name := by
        have : (r.remove_phone phone).2.name = r.name := rfl
        rw [this]
        exact find_name_eq _ name r ih hf
      exact bookInv_dictSet _ name (r.remove_phone phone).2 ih hn
    | none => exact ih

/-- Witness for C8: the empty starting book is reachable and satisfies
the invariant. -/
theorem reachable_book_inv_witness : BookInv AddressBook.empty :=
  reachable_book_inv AddressBook.empty Reachable.empty

/-! ## Claim theorem: merge-on-add (C2) -/

/-- C2: two `add` calls with the same name and two valid phones leave
exactly one directory entry for that name, whose record's phone list ends
with the two phones in call order — the second add extends the existing
record's list instead of duplicating the entry or overwriting the first
phone. -/
theorem add_contact_merge (book : AddressBook) (name p1 p2 : String)
    (hinv : BookInv book) (_hp : p1 ≠ p2)
    (h1 : Phone.validate p1 = Except.ok p1)
    (h2 : Phone.validate p2 = Except.ok p2) :
    ((add_contact name p2 (add_contact name p1 book).1).1.countP
      (fun e => e.1 == name)) = 1 ∧
    ∃ r l, (add_contact name p2 (add_contact name p1 book).1).1.find name =
      some r ∧ r.phones = l ++ [p1, p2] := by
  cases hf : book.find name with
  | none =>
    have hb1 : (add_contact name p1 book).1 =
        book.dictSet name ⟨name, [p1], none⟩ := by
      simp [add_contact, hf, Record.mk0, Record.add_phone, h1, Except.map,
        AddressBook.add_record, AddressBook.dictSet]
    have hf1 : (book.dictSet name ⟨name, [p1], none⟩).find name =
        some ⟨name, [p1], none⟩ := dictSet_find_self book name _
    have hb2 : (add_contact name p2 (add_contact name p1 book).1).1 =
        (book.dictSet name ⟨name, [p1], none⟩).dictSet name
          ⟨name, [p1, p2], none⟩ := by
      rw [hb1]
      simp [add_contact, hf1, Record.add_phone, h2, Except.map]
    constructor
    · rw [hb2]
      rw [keyCount_dictSet_of_find_some _ name _ _ hf1,
        keyCount_dictSet_of_find_none book name _ hf,
        keyCount_zero_of_find_none book name hf]
    · refine ⟨⟨name, [p1, p2], none⟩, [], ?_, rfl⟩
      rw [hb2]
      exact dictSet_find_self _ name _
  | some r =>
    have hb1 : (add_contact name p1 book).1 =
        book.dictSet name { r with phones := r.phones ++ [p1] } := by
      simp [add_contact, hf, Record.add_phone, h1, Except.map]
    have hf1 : (book.dictSet name { r with phones := r.phones ++ [p1] }).find
        name = some { r with phones := r.phones ++ [p1] } :=
      dictSet_find_self book name _
    have hb2 : (add_contact name p2 (add_contact name p1 book).1).1 =
        (book.dictSet name { r with phones := r.phones ++ [p1] }).dictSet name
          { r with phones := r.phones ++ [p1] ++ [p2] } := by
      rw [hb1]
      simp [add_contact, hf1, Record.add_phone, h2, Except.map]
    constructor
    · rw [hb2]
      rw [keyCount_dictSet_of_find_some _ name _ _ hf1,
        keyCount_dictSet_of_find_some book name _ _ hf]
      exact Nat.le_antisymm (keyCount_le_one book name hinv.1)
        (keyCount_pos_of_find_some book name r hf)
    · refine ⟨{ r with phones := r.phones ++ [p1] ++ [p2] }, r.phones, ?_, ?_⟩
      · rw [hb2]
        exact dictSet_find_self _ name _
      · simp

/-- Witness for C2: adding `alice` twice with two different valid phones
into the empty book. -/
theorem add_contact_merge_witness :
    ((add_contact "alice" "0123456798"
        (add_contact "alice" "0123456789" AddressBook.empty).1).1.countP
      (fun e => e.1 == "alice")) = 1 ∧
    ∃ r l, (add_contact "alice" "0123456798"
        (add_contact "alice" "0123456789" AddressBook.empty).1).1.find
        "alice" = some r ∧ r.phones = l ++ ["0123456789", "0123456798"] :=
  add_contact_merge AddressBook.empty "alice" "0123456789" "0123456798"
    ⟨List.nodup_nil, fun e he => absurd he (List.not_mem_nil e)⟩
    (by decide) rfl rfl

/-! ## Claim theorems: the birthday window (C1, C10) -/

theorem upcomingAux_ok_of_valid (today : Date) (rs : List Record)
    (hv : ∀ r ∈ rs, ∀ b, r.birthday = some b →
      (Date.mk today.year b.month b.day).valid = true) :
    AddressBook.upcomingAux today rs =
      Except.ok (rs.filter (birthdayInWindow today)) := by
  induction rs with
  | nil => rfl
  | cons r rest ih =>
    have hrest := fun x hx => hv x (List.mem_cons_of_mem r hx)
    cases hb : r.birthday with
    | none =>
      have hwin : birthdayInWindow today r = false := by
        simp [birthdayInWindow, hb]
      simp [AddressBook.upcomingAux, hb, ih hrest, List.filter_cons, hwin]
    | some b =>
      have hvb := hv r (List.mem_cons_self r rest) b hb
      have hdelta : ((Date.mk today.year b.month b.day).toOrdinal : Int) -
          (today.toOrdinal : Int) = deltaDays today b := rfl
      by_cases hw : 0 ≤ deltaDays today b ∧ deltaDays today b ≤ 7
      · have hwin : birthdayInWindow today r = true := by
          simp [birthdayInWindow, hb, hw.1, hw.2]
        simp [AddressBook.upcomingAux, hb, hvb, hdelta, hw.1, hw.2, ih hrest,
          List.filter_cons, hwin, Except.map]
      · have hwin : birthdayInWindow today r = false := by
          simp only [birthdayInWindow, hb, decide_eq_false_iff_not]
          exact hw
        simp only [AddressBook.upcomingAux, hb, hvb, if_true, ih hrest,
          List.filter_cons, hwin, hdelta]
        rw [if_neg hw]
        simp

theorem upcomingAux_ok_shape (today : Date) (rs : List Record)
    (l : List Record) (h : AddressBook.upcomingAux today rs = Except.ok l) :
    l = rs.filter (birthdayInWindow today) := by
  induction rs generalizing l with
  | nil =>
    simp only [AddressBook.upcomingAux] at h
    cases h
    rfl
  | cons r rest ih =>
    cases hb : r.birthday with
    | none =>
      simp only [AddressBook.upcomingAux, hb] at h
      rw [ih l h, List.filter_cons]
      simp [birthdayInWindow, hb]
    | some b =>
      simp only [AddressBook.upcomingAux, hb] at h
      by_cases hvb : (Date.mk today.year b.month b.day).valid = true
      · rw [if_pos hvb] at h
        by_cases hw : (0:Int) ≤ (Date.mk today.year b.month b.day).toOrdinal -
            today.toOrdinal ∧
            ((Date.mk today.year b.month b.day).toOrdinal:Int) -
            today.toOrdinal ≤ 7
        · rw [if_pos hw] at h
          cases hrec : AddressBook.upcomingAux today rest with
          | ok l2 =>
            rw [hrec] at h
            simp only [Except.map] at h
            cases h
            rw [ih l2 hrec, List.filter_cons]
            have : birthdayInWindow today r = true := by
              simp only [birthdayInWindow, hb, deltaDays]
              exact decide_eq_true hw
            simp [this]
          | error e => rw [hrec] at h; simp [Except.map] at h
        · rw [if_neg hw] at h
          rw [ih l h, List.filter_cons]
          have : birthdayInWindow today r = false := by
            simp only [birthdayInWindow, hb, deltaDays,
              decide_eq_false_iff_not]
            exact hw
          simp [this]
      · rw [if_neg hvb] at h
        cases h

/-- C1: whenever the query succeeds, a record with a stored birthday is in
the result exactly when `0 <= delta_days <= 7`, where `delta_days` is the
day difference between the birthday moved to today's year and today; in
particular a 25.06.1990 birthday is listed on 20.06.2024 (delta 5) and not
on 30.06.2024 (delta negative — no wraparound to next year). -/
theorem upcoming_birthdays_window (book : AddressBook) (today : Date)
    (l : List Record) (h : book.get_upcoming_birthdays today = Except.ok l) :
    (∀ r ∈ book.values, ∀ b, r.birthday = some b →
      (r ∈ l ↔ (0 ≤ deltaDays today b ∧ deltaDays today b ≤ 7))) ∧
    AddressBook.get_upcoming_birthdays
        [("a", ⟨"a", [], some ⟨1990, 6, 25⟩⟩)] ⟨2024, 6, 20⟩ =
      Except.ok [⟨"a", [], some ⟨1990, 6, 25⟩⟩] ∧
    AddressBook.get_upcoming_birthdays
        [("a", ⟨"a", [], some ⟨1990, 6, 25⟩⟩)] ⟨2024, 6, 30⟩ =
      Except.ok [] := by
  refine ⟨?_, rfl, rfl⟩
  intro r hr b hb
  have hl : l = book.values.filter (birthdayInWindow today) :=
    upcomingAux_ok_shape today book.values l h
  subst hl
  rw [List.mem_filter]
  constructor
  · intro hm
    have hwin := hm.2
    simp only [birthdayInWindow, hb] at hwin
    exact of_decide_eq_true hwin
  · intro hw
    exact ⟨hr, by simp [birthdayInWindow, hb, hw.1, hw.2]⟩

/-- Witness for C1 at the singleton book for "a" with birthday
25.06.1990 queried on 20.06.2024. -/
theorem upcoming_birthdays_window_witness :
    (⟨"a", [], some ⟨1990, 6, 25⟩⟩ : Record) ∈
        [(⟨"a", [], some ⟨1990, 6, 25⟩⟩ : Record)] ↔
      (0 ≤ deltaDays ⟨2024, 6, 20⟩ ⟨1990, 6, 25⟩ ∧
        deltaDays ⟨2024, 6, 20⟩ ⟨1990, 6, 25⟩ ≤ 7) :=
  (upcoming_birthdays_window [("a", ⟨"a", [], some ⟨1990, 6, 25⟩⟩)]
      ⟨2024, 6, 20⟩ [⟨"a", [], some ⟨1990, 6, 25⟩⟩] rfl).1
    ⟨"a", [], some ⟨1990, 6, 25⟩⟩ (by decide) ⟨1990, 6, 25⟩ rfl

/-- C10 counterexample: the birthday 29.02.1996 is accepted by the
validator, but the query on 01.03.2023 (2023 is not a leap year) raises
`ValueError("day is out of range for month")` from
`replace(year=2023)` instead of returning a list. -/
theorem upcoming_birthdays_feb29_error :
    AddressBook.get_upcoming_birthdays
        [("kate", ⟨"kate", [], some ⟨1996, 2, 29⟩⟩)] ⟨2023, 3, 1⟩ =
      Except.error "day is out of range for month" ∧
    Birthday.validate "29.02.1996" = Except.ok ⟨1996, 2, 29⟩ ∧
    isLeap 2023 = false :=
  ⟨rfl, rfl, rfl⟩

/-- C10 amended: the query returns a list without failing provided every
stored birthday is still a valid date after its year is replaced by
today's year — which for validated birthdays only excludes a February 29
birthday when today's year is not a leap year. -/
theorem upcoming_birthdays_total_of_replace_valid (book : AddressBook)
    (today : Date)
    (hv : ∀ r ∈ book.values, ∀ b, r.birthday = some b →
      (Date.mk today.year b.month b.day).valid = true) :
    book.get_upcoming_birthdays today =
      Except.ok (book.values.filter (birthdayInWindow today)) :=
  upcomingAux_ok_of_valid today book.values hv

/-- Witness for the amended C10: a 29.02.1996 birthday queried on
25.02.2024 — a leap year — succeeds and lists the record. -/
theorem upcoming_birthdays_total_witness :
    AddressBook.get_upcoming_birthdays
        [("kate", ⟨"kate", [], some ⟨1996, 2, 29⟩⟩)] ⟨2024, 2, 25⟩ =
      Except.ok [⟨"kate", [], some ⟨1996, 2, 29⟩⟩] := by
  have h := upcoming_birthdays_total_of_replace_valid
    [("kate", ⟨"kate", [], some ⟨1996, 2, 29⟩⟩)] ⟨2024, 2, 25⟩ ?hv
  case hv =>
    intro r hr b hb
    have : r = ⟨"kate", [], some ⟨1996, 2, 29⟩⟩ := by
      simpa [AddressBook.values] using hr
    subst this
    cases hb
    rfl
  exact h.trans (by rfl)

/-- Witness for C5 at a concrete two-entry book. -/
theorem save_load_roundtrip_witness :
    load_data (save_data [("alice", ⟨"alice", ["0123456789"], none⟩),
      ("bob", ⟨"bob", [], some ⟨1990, 6, 25⟩⟩)]) =
      [("alice", ⟨"alice", ["0123456789"], none⟩),
       ("bob", ⟨"bob", [], some ⟨1990, 6, 25⟩⟩)] :=
  save_load_roundtrip
    [("alice", ⟨"alice", ["0123456789"], none⟩),
     ("bob", ⟨"bob", [], some ⟨1990, 6, 25⟩⟩)]
    ⟨by decide, by decide⟩

/-! ## Claim theorems: phone validation (C3) -/

/-- C3 counterexample: `$` in Python also matches just before a trailing
newline, so the 11-character string `"0123456789\n"` is accepted (and
stored verbatim), refuting "fails for every s of length other than
10". -/
theorem phone_validate_trailing_newline :
    Phone.validate "0123456789\n" = Except.ok "0123456789\n" ∧
    ("0123456789\n").length = 11 :=
  ⟨rfl, rfl⟩

theorem matchTen_iff (cs : List Char) :
    Phone.matchTen cs = true ↔
      ((cs.length = 10 ∧ cs.all Char.isDigit = true) ∨
        (∃ ds, cs = ds ++ ['\n'] ∧ ds.length = 10 ∧
          ds.all Char.isDigit = true)) := by
  unfold Phone.matchTen
  constructor
  · intro h
    rw [Bool.and_eq_true, Bool.or_eq_true] at h
    obtain ⟨hA, hB⟩ := h
    rcases hB with hlen | hB
    · left
      have hlen10 : cs.length = 10 := by simpa using hlen
      refine ⟨hlen10, ?_⟩
      have : cs.take 10 = cs := by
        rw [← hlen10]
        exact List.take_length cs
      rwa [this] at hA
    · right
      rw [Bool.and_eq_true] at hB
      have hlen11 : cs.length = 11 := by simpa using hB.1
      have hlast : cs.getLast? = some '\n' := by
        have := hB.2
        simpa using this
      refine ⟨cs.take 10, ?_, ?_, hA⟩
      · have hdlen : (cs.drop 10).length = 1 := by
          rw [List.length_drop, hlen11]
        obtain ⟨c, hc⟩ := List.length_eq_one.mp hdlen
        have hsplit : cs = cs.take 10 ++ [c] := by
          conv_lhs => rw [← List.take_append_drop 10 cs]
          rw [hc]
        have : cs.getLast? = some c := by
          rw [hsplit, List.getLast?_concat]
        rw [hlast] at this
        cases this
        exact hsplit
      · rw [List.length_take, hlen11]
        rfl
  · intro h
    rw [Bool.and_eq_true, Bool.or_eq_true]
    rcases h with ⟨hlen, hdig⟩ | ⟨ds, hds, hlen, hdig⟩
    · constructor
      · have : cs.take 10 = cs := by
          rw [← hlen]
          exact List.take_length cs
        rwa [this]
      · left
        simpa using hlen
    · constructor
      · have : cs.take 10 = ds := by
          rw [hds, ← hlen]
          exact List.take_left ds ['\n']
        rwa [this]
      · right
        rw [Bool.and_eq_true]
        constructor
        · have : cs.length = 11 := by
            rw [hds, List.length_append, hlen]
            rfl
          simpa using this
        · have : cs.getLast? = some '\n' := by
            rw [hds, List.getLast?_concat]
          simpa using this

/-- C3 amended: `validate_phone(s)` succeeds iff s is exactly 10 digits
or exactly 10 digits followed by one trailing newline (Python's `$`
matches just before a final newline); on success the stored value is s
itself, verbatim — including the trailing newline when present. -/
theorem phone_validate_characterization (s : String) :
    ((∃ v, Phone.validate s = Except.ok v) ↔
      ((s.toList.length = 10 ∧ s.toList.all Char.isDigit = true) ∨
        (∃ ds, s.toList = ds ++ ['\n'] ∧ ds.length = 10 ∧
          ds.all Char.isDigit = true))) ∧
    (∀ v, Phone.validate s = Except.ok v → v = s) := by
  constructor
  · unfold Phone.validate
    by_cases h : Phone.matchTen s.toList = true
    · rw [if_pos h]
      exact iff_of_true ⟨s, rfl⟩ ((matchTen_iff s.toList).mp h)
    · rw [if_neg h]
      constructor
      · rintro ⟨v, hv⟩
        cases hv
      · intro hr
        exact absurd ((matchTen_iff s.toList).mpr hr) h
  · intro v hv
    unfold Phone.validate at hv
    split at hv
    · cases hv
      rfl
    · cases hv

/-- Witness for the amended C3: both acceptance shapes and the verbatim
stored value at concrete strings. -/
theorem phone_validate_characterization_witness :
    (∃ v, Phone.validate "0123456789" = Except.ok v) ∧
    (∀ v, Phone.validate "0123456789" = Except.ok v → v = "0123456789") := by
  constructor
  · exact (phone_validate_characterization "0123456789").1.mpr
      (Or.inl (by decide))
  · exact (phone_validate_characterization "0123456789").2

/-! ## Character and digit lemmas for the birthday format (C4) -/

theorem char_eq_of_toNat {a b : Char} (h : a.toNat = b.toNat) : a = b := by
  apply Char.ext
  exact UInt32.toNat.inj h

theorem isDigit_bounds (c : Char) (h : c.isDigit = true) :
    48 ≤ c.toNat ∧ c.toNat ≤ 57 := by
  simp [Char.isDigit] at h
  exact ⟨h.1, h.2⟩

theorem isDigit_of_bounds (c : Char) (h1 : 48 ≤ c.toNat) (h2 : c.toNat ≤ 57) :
    c.isDigit = true := by
  simp [Char.isDigit]
  exact ⟨h1, h2⟩

theorem digit_char_eq (c : Char) (h : c.isDigit = true) :
    c = Char.ofNat (48 + Birthday.digitVal c) ∧ Birthday.digitVal c < 10 := by
  have hb := isDigit_bounds c h
  constructor
  · have hv : 48 + Birthday.digitVal c = c.toNat := by
      unfold Birthday.digitVal
      omega
    rw [hv, Char.ofNat_toNat]
  · unfold Birthday.digitVal
    omega

theorem digitChar_ofNat (k : Nat) (h : k < 10) :
    Nat.digitChar k = Char.ofNat (48 + k) := by
  interval_cases k <;> decide

theorem natOfDigits_single (a : Char) :
    Birthday.natOfDigits [a] = Birthday.digitVal a := by
  simp [Birthday.natOfDigits]

theorem natOfDigits_pair (a b : Char) :
    Birthday.natOfDigits [a, b] =
      10 * Birthday.digitVal a + Birthday.digitVal b := by
  simp [Birthday.natOfDigits]

theorem natOfDigits_four (a b c d : Char) :
    Birthday.natOfDigits [a, b, c, d] =
      10 * (10 * (10 * Birthday.digitVal a + Birthday.digitVal b) +
        Birthday.digitVal c) + Birthday.digitVal d := by
  simp [Birthday.natOfDigits]

theorem firstSome_eq_some {α β : Type} (l : List α) (f : α → Option β)
    (y : β) (h : Birthday.firstSome l f = some y) : ∃ x ∈ l, f x = some y := by
  induction l with
  | nil => cases h
  | cons x xs ih =>
    unfold Birthday.firstSome at h
    cases hx : f x with
    | some z =>
      rw [hx] at h
      cases h
      exact ⟨x, List.mem_cons_self x xs, hx⟩
    | none =>
      rw [hx] at h
      obtain ⟨z, hz, hfz⟩ := ih h
      exact ⟨z, List.mem_cons_of_mem x hz, hfz⟩

theorem firstSome_isSome {α β : Type} (l : List α) (f : α → Option β)
    (x : α) (y : β) (hx : x ∈ l) (hf : f x = some y) :
    ∃ z, Birthday.firstSome l f = some z := by
  induction l with
  | nil => cases hx
  | cons a xs ih =>
    unfold Birthday.firstSome
    cases ha : f a with
    | some z => exact ⟨z, rfl⟩
    | none =>
      rcases List.mem_cons.mp hx with h | h
      · rw [← h] at ha
        rw [ha] at hf
        cases hf
      · exact ih h

theorem dot_split_unique (as bs cs ds : List Char)
    (h : as ++ '.' :: bs = cs ++ '.' :: ds)
    (ha : '.' ∉ as) (hc : '.' ∉ cs) : as = cs ∧ bs = ds := by
  induction as generalizing cs with
  | nil =>
    cases cs with
    | nil =>
      simp only [List.nil_append] at h
      exact ⟨rfl, by injection h⟩
    | cons c cs2 =>
      simp only [List.nil_append, List.cons_append] at h
      injection h with h1 h2
      exact absurd (h1 ▸ List.mem_cons_self c cs2 : '.' ∈ c :: cs2)
        (h1 ▸ hc)
  | cons a as2 ih =>
    cases cs with
    | nil =>
      simp only [List.cons_append, List.nil_append] at h
      injection h with h1 h2
      exact absurd (h1 ▸ List.mem_cons_self a as2) (h1 ▸ ha)
    | cons c cs2 =>
      simp only [List.cons_append] at h
      injection h with h1 h2
      have hnd : '.' ∉ as2 := fun hm => ha (List.mem_cons_of_mem a hm)
      have hnd2 : '.' ∉ cs2 := fun hm => hc (List.mem_cons_of_mem c hm)
      obtain ⟨he, he2⟩ := ih cs2 h2 hnd hnd2
      exact ⟨by rw [h1, he], he2⟩

theorem not_dot_of_digits (cs : List Char) (h : cs.all Char.isDigit = true) :
    '.' ∉ cs := by
  intro hm
  have := List.all_eq_true.mp h '.' hm
  cases this

theorem two_digit_pack (c1 c2 : Char) (rest0 : List Char)
    (h1 : c1.isDigit = true) (h2 : c2.isDigit = true)
    (hlo : 1 ≤ Birthday.natOfDigits [c1, c2])
    (hhi : Birthday.natOfDigits [c1, c2] ≤ 31) :
    ∃ ds, (c1 :: c2 :: rest0 : List Char) = ds ++ rest0 ∧
      ds.all Char.isDigit = true ∧ (ds.length = 1 ∨ ds.length = 2) ∧
      Birthday.natOfDigits ds = Birthday.natOfDigits [c1, c2] ∧
      1 ≤ Birthday.natOfDigits [c1, c2] ∧
      Birthday.natOfDigits [c1, c2] ≤ 31 :=
  ⟨[c1, c2], rfl, by simp [h1, h2], Or.inr rfl, rfl, hlo, hhi⟩

theorem one_digit_pack (c1 : Char) (rest0 : List Char)
    (h1 : c1.isDigit = true) (hlo : 1 ≤ Birthday.natOfDigits [c1])
    (hhi : Birthday.natOfDigits [c1] ≤ 31) :
    ∃ ds, (c1 :: rest0 : List Char) = ds ++ rest0 ∧
      ds.all Char.isDigit = true ∧ (ds.length = 1 ∨ ds.length = 2) ∧
      Birthday.natOfDigits ds = Birthday.natOfDigits [c1] ∧
      1 ≤ Birthday.natOfDigits [c1] ∧ Birthday.natOfDigits [c1] ≤ 31 :=
  ⟨[c1], rfl, by simp [h1], Or.inl rfl, rfl, hlo, hhi⟩

theorem dayAlts_sound (cs : List Char) (v : Nat) (rest : List Char)
    (h : (v, rest) ∈ Birthday.dayAlts cs) :
    ∃ ds, cs = ds ++ rest ∧ ds.all Char.isDigit = true ∧
      (ds.length = 1 ∨ ds.length = 2) ∧ Birthday.natOfDigits ds = v ∧
      1 ≤ v ∧ v ≤ 31 := by
  cases cs with
  | nil => cases h
  | cons c1 cs1 =>
    cases cs1 with
    | nil =>
      simp only [Birthday.dayAlts] at h
      by_cases hc : '1' ≤ c1 ∧ c1 ≤ '9'
      · rw [if_pos hc] at h
        have heq := List.mem_singleton.mp h
        injection heq with hv hr
        subst hv
        subst hr
        have hn1 : 49 ≤ c1.toNat := hc.1
        have hn2 : c1.toNat ≤ 57 := hc.2
        have hdv : Birthday.digitVal c1 = c1.toNat - 48 := rfl
        have := one_digit_pack c1 [] (isDigit_of_bounds c1 (by omega) hn2)
          (by rw [natOfDigits_single]; omega)
          (by rw [natOfDigits_single]; omega)
        simpa [natOfDigits_single] using this
      · rw [if_neg hc] at h
        cases h
    | cons c2 rest0 =>
      simp only [Birthday.dayAlts] at h
      rcases List.mem_append.mp h with h | h4
      · rcases List.mem_append.mp h with h | h3
        · rcases List.mem_append.mp h with h1 | h2
          · by_cases hc : c1 = '3' ∧ (c2 = '0' ∨ c2 = '1')
            · rw [if_pos hc] at h1
              have heq := List.mem_singleton.mp h1
              injection heq with hv hr
              subst hv
              subst hr
              obtain ⟨hc1, hc2⟩ := hc
              subst hc1
              have hd2 : c2.isDigit = true := by
                rcases hc2 with hc2 | hc2 <;> subst hc2 <;> decide
              have hdv2 : Birthday.digitVal c2 ≤ 1 := by
                rcases hc2 with hc2 | hc2 <;> subst hc2 <;> decide
              have h3v : Birthday.digitVal '3' = 3 := rfl
              have hnat : Birthday.natOfDigits ['3', c2] =
                  30 + Birthday.digitVal c2 := by
                rw [natOfDigits_pair, h3v]
              have := two_digit_pack '3' c2 rest (by decide) hd2
                (by omega) (by omega)
              rw [hnat] at this
              exact this
            · rw [if_neg hc] at h1
              cases h1
          · by_cases hc : (c1 = '1' ∨ c1 = '2') ∧ c2.isDigit = true
            · rw [if_pos hc] at h2
              have heq := List.mem_singleton.mp h2
              injection heq with hv hr
              subst hv
              subst hr
              have hd1 : c1.isDigit = true := by
                rcases hc.1 with hc1 | hc1 <;> subst hc1 <;> decide
              have hdv1 : 1 ≤ Birthday.digitVal c1 ∧
                  Birthday.digitVal c1 ≤ 2 := by
                rcases hc.1 with hc1 | hc1 <;> subst hc1 <;> exact ⟨by decide, by decide⟩
              have hdv2 : Birthday.digitVal c2 < 10 := (digit_char_eq c2 hc.2).2
              have := two_digit_pack c1 c2 rest hd1 hc.2
                (by rw [natOfDigits_pair]; omega)
                (by rw [natOfDigits_pair]; omega)
              rw [natOfDigits_pair] at this
              exact this
            · rw [if_neg hc] at h2
              cases h2
        · by_cases hc : c1 = '0' ∧ ('1' ≤ c2 ∧ c2 ≤ '9')
          · rw [if_pos hc] at h3
            have heq := List.mem_singleton.mp h3
            injection heq with hv hr
            subst hv
            subst hr
            obtain ⟨hc1, hb1, hb2⟩ := hc
            subst hc1
            have hn1 : 49 ≤ c2.toNat := hb1
            have hn2 : c2.toNat ≤ 57 := hb2
            have hd2 : c2.isDigit = true := isDigit_of_bounds c2 (by omega) hn2
            have h0v : Birthday.digitVal '0' = 0 := rfl
            have hdvb : Birthday.digitVal c2 = c2.toNat - 48 := rfl
            have hnat : Birthday.natOfDigits ['0', c2] =
                Birthday.digitVal c2 := by
              rw [natOfDigits_pair, h0v]
              omega
            have := two_digit_pack '0' c2 rest (by decide) hd2
              (by omega) (by omega)
            rw [hnat] at this
            exact this
          · rw [if_neg hc] at h3
            cases h3
      · by_cases hc : '1' ≤ c1 ∧ c1 ≤ '9'
        · rw [if_pos hc] at h4
          have heq := List.mem_singleton.mp h4
          injection heq with hv hr
          subst hv
          subst hr
          have hn1 : 49 ≤ c1.toNat := hc.1
          have hn2 : c1.toNat ≤ 57 := hc.2
          have hdv : Birthday.digitVal c1 = c1.toNat - 48 := rfl
          have := one_digit_pack c1 (c2 :: rest0)
            (isDigit_of_bounds c1 (by omega) hn2)
            (by rw [natOfDigits_single]; omega)
            (by rw [natOfDigits_single]; omega)
          simpa [natOfDigits_single] using this
        · rw [if_neg hc] at h4
          cases h4

theorem two_digit_packM (c1 c2 : Char) (rest0 : List Char) (hi : Nat)
    (h1 : c1.isDigit = true) (h2 : c2.isDigit = true)
    (hlo : 1 ≤ Birthday.natOfDigits [c1, c2])
    (hhi : Birthday.natOfDigits [c1, c2] ≤ hi) :
    ∃ ds, (c1 :: c2 :: rest0 : List Char) = ds ++ rest0 ∧
      ds.all Char.isDigit = true ∧ (ds.length = 1 ∨ ds.length = 2) ∧
      Birthday.natOfDigits ds = Birthday.natOfDigits [c1, c2] ∧
      1 ≤ Birthday.natOfDigits [c1, c2] ∧
      Birthday.natOfDigits [c1, c2] ≤ hi :=
  ⟨[c1, c2], rfl, by simp [h1, h2], Or.inr rfl, rfl, hlo, hhi⟩

theorem one_digit_packM (c1 : Char) (rest0 : List Char) (hi : Nat)
    (h1 : c1.isDigit = true) (hlo : 1 ≤ Birthday.natOfDigits [c1])
    (hhi : Birthday.natOfDigits [c1] ≤ hi) :
    ∃ ds, (c1 :: rest0 : List Char) = ds ++ rest0 ∧
      ds.all Char.isDigit = true ∧ (ds.length = 1 ∨ ds.length = 2) ∧
      Birthday.natOfDigits ds = Birthday.natOfDigits [c1] ∧
      1 ≤ Birthday.natOfDigits [c1] ∧ Birthday.natOfDigits [c1] ≤ hi :=
  ⟨[c1], rfl, by simp [h1], Or.inl rfl, rfl, hlo, hhi⟩

theorem monthAlts_sound (cs : List Char) (v : Nat) (rest : List Char)
    (h : (v, rest) ∈ Birthday.monthAlts cs) :
    ∃ ms, cs = ms ++ rest ∧ ms.all Char.isDigit = true ∧
      (ms.length = 1 ∨ ms.length = 2) ∧ Birthday.natOfDigits ms = v ∧
      1 ≤ v ∧ v ≤ 12 := by
  cases cs with
  | nil => cases h
  | cons c1 cs1 =>
    cases cs1 with
    | nil =>
      simp only [Birthday.monthAlts] at h
      by_cases hc : '1' ≤ c1 ∧ c1 ≤ '9'
      · rw [if_pos hc] at h
        have heq := List.mem_singleton.mp h
        injection heq with hv hr
        subst hv
        subst hr
        have hn1 : 49 ≤ c1.toNat := hc.1
        have hn2 : c1.toNat ≤ 57 := hc.2
        have hdv : Birthday.digitVal c1 = c1.toNat - 48 := rfl
        have := one_digit_packM c1 [] 12 (isDigit_of_bounds c1 (by omega) hn2)
          (by rw [natOfDigits_single]; omega)
          (by rw [natOfDigits_single]; omega)
        simpa [natOfDigits_single] using this
      · rw [if_neg hc] at h
        cases h
    | cons c2 rest0 =>
      simp only [Birthday.monthAlts] at h
      rcases List.mem_append.mp h with h | h3
      · rcases List.mem_append.mp h with h1 | h2
        · by_cases hc : c1 = '1' ∧ ('0' ≤ c2 ∧ c2 ≤ '2')
          · rw [if_pos hc] at h1
            have heq := List.mem_singleton.mp h1
            injection heq with hv hr
            subst hv
            subst hr
            obtain ⟨hc1, hb1, hb2⟩ := hc
            subst hc1
            have hn1 : 48 ≤ c2.toNat := hb1
            have hn2 : c2.toNat ≤ 50 := hb2
            have hd2 : c2.isDigit = true :=
              isDigit_of_bounds c2 hn1 (by omega)
            have h1v : Birthday.digitVal '1' = 1 := rfl
            have hdvb : Birthday.digitVal c2 = c2.toNat - 48 := rfl
            have hnat : Birthday.natOfDigits ['1', c2] =
                10 + Birthday.digitVal c2 := by
              rw [natOfDigits_pair, h1v]
            have := two_digit_packM '1' c2 rest 12 (by decide) hd2
              (by omega) (by omega)
            rw [hnat] at this
            exact this
          · rw [if_neg hc] at h1
            cases h1
        · by_cases hc : c1 = '0' ∧ ('1' ≤ c2 ∧ c2 ≤ '9')
          · rw [if_pos hc] at h2
            have heq := List.mem_singleton.mp h2
            injection heq with hv hr
            subst hv
            subst hr
            obtain ⟨hc1, hb1, hb2⟩ := hc
            subst hc1
            have hn1 : 49 ≤ c2.toNat := hb1
            have hn2 : c2.toNat ≤ 57 := hb2
            have hd2 : c2.isDigit = true :=
              isDigit_of_bounds c2 (by omega) hn2
            have h0v : Birthday.digitVal '0' = 0 := rfl
            have hdvb : Birthday.digitVal c2 = c2.toNat - 48 := rfl
            have hnat : Birthday.natOfDigits ['0', c2] =
                Birthday.digitVal c2 := by
              rw [natOfDigits_pair, h0v]
              omega
            have := two_digit_packM '0' c2 rest 12 (by decide) hd2
              (by omega) (by omega)
            rw [hnat] at this
            exact this
          · rw [if_neg hc] at h2
            cases h2
      · by_cases hc : '1' ≤ c1 ∧ c1 ≤ '9'
        · rw [if_pos hc] at h3
          have heq := List.mem_singleton.mp h3
          injection heq with hv hr
          subst hv
          subst hr
          have hn1 : 49 ≤ c1.toNat := hc.1
          have hn2 : c1.toNat ≤ 57 := hc.2
          have hdv : Birthday.digitVal c1 = c1.toNat - 48 := rfl
          have := one_digit_packM c1 (c2 :: rest0) 12
            (isDigit_of_bounds c1 (by omega) hn2)
            (by rw [natOfDigits_single]; omega)
            (by rw [natOfDigits_single]; omega)
          simpa [natOfDigits_single] using this
        · rw [if_neg hc] at h3
          cases h3

theorem dayAlts_complete (ds rest : List Char)
    (hd : ds.all Char.isDigit = true) (hlen : ds.length = 1 ∨ ds.length = 2)
    (hlo : 1 ≤ Birthday.natOfDigits ds) (hhi : Birthday.natOfDigits ds ≤ 31) :
    (Birthday.natOfDigits ds, rest) ∈ Birthday.dayAlts (ds ++ rest) := by
  rcases hlen with hlen | hlen
  · obtain ⟨c1, hc⟩ := List.length_eq_one.mp hlen
    subst hc
    have hd1 : c1.isDigit = true := by simpa using hd
    have hb := isDigit_bounds c1 hd1
    have hv : Birthday.natOfDigits [c1] = c1.toNat - 48 := by
      rw [natOfDigits_single]
      rfl
    have hcond : '1' ≤ c1 ∧ c1 ≤ '9' :=
      ⟨show 49 ≤ c1.toNat by omega, show c1.toNat ≤ 57 by omega⟩
    cases rest with
    | nil =>
      simp only [List.nil_append, List.append_nil, Birthday.dayAlts,
        if_pos hcond]
      rw [natOfDigits_single]
      exact List.mem_singleton.mpr rfl
    | cons c2 rest0 =>
      simp only [List.cons_append, List.nil_append, List.append_nil,
        Birthday.dayAlts]
      refine List.mem_append.mpr (Or.inr ?_)
      rw [if_pos hcond, natOfDigits_single]
      exact List.mem_singleton.mpr rfl
  · obtain ⟨c1, c2, hc⟩ := List.length_eq_two.mp hlen
    subst hc
    have hd1 : c1.isDigit = true := by
      have := List.all_eq_true.mp hd c1 (by simp)
      exact this
    have hd2 : c2.isDigit = true := by
      have := List.all_eq_true.mp hd c2 (by simp)
      exact this
    have hb1 := isDigit_bounds c1 hd1
    have hb2 := isDigit_bounds c2 hd2
    have hdv1 : Birthday.digitVal c1 = c1.toNat - 48 := rfl
    have hdv2 : Birthday.digitVal c2 = c2.toNat - 48 := rfl
    rw [natOfDigits_pair] at hlo hhi
    simp only [List.cons_append, List.nil_append, Birthday.dayAlts]
    have hsplit : c1.toNat = 48 ∨ (49 ≤ c1.toNat ∧ c1.toNat ≤ 50) ∨
        c1.toNat = 51 ∨ 52 ≤ c1.toNat := by omega
    rcases hsplit with ha | ha | ha | ha
    · have hc1 : c1 = '0' := char_eq_of_toNat ha
      subst hc1
      have hc2b : 49 ≤ c2.toNat ∧ c2.toNat ≤ 57 := by
        constructor
        · omega
        · omega
      have hcond : ('0' : Char) = '0' ∧ ('1' ≤ c2 ∧ c2 ≤ '9') :=
        ⟨rfl, show 49 ≤ c2.toNat from hc2b.1, show c2.toNat ≤ 57 from hc2b.2⟩
      refine List.mem_append.mpr (Or.inl (List.mem_append.mpr (Or.inr ?_)))
      rw [if_pos hcond]
      have : Birthday.natOfDigits ['0', c2] = Birthday.digitVal c2 := by
        rw [natOfDigits_pair]
        have h0 : Birthday.digitVal '0' = 0 := rfl
        omega
      rw [this]
      exact List.mem_singleton.mpr rfl
    · have hc1 : c1 = '1' ∨ c1 = '2' := by
        rcases (by omega : c1.toNat = 49 ∨ c1.toNat = 50) with h49 | h50
        · exact Or.inl (char_eq_of_toNat h49)
        · exact Or.inr (char_eq_of_toNat h50)
      have hcond : (c1 = '1' ∨ c1 = '2') ∧ c2.isDigit = true := ⟨hc1, hd2⟩
      refine List.mem_append.mpr (Or.inl (List.mem_append.mpr (Or.inl
        (List.mem_append.mpr (Or.inr ?_)))))
      rw [if_pos hcond, natOfDigits_pair]
      exact List.mem_singleton.mpr rfl
    · have hc1 : c1 = '3' := char_eq_of_toNat ha
      subst hc1
      have h3 : Birthday.digitVal '3' = 3 := rfl
      have hc2b : c2.toNat ≤ 49 := by omega
      have hcond : ('3' : Char) = '3' ∧ (c2 = '0' ∨ c2 = '1') := by
        refine ⟨rfl, ?_⟩
        rcases (by omega : c2.toNat = 48 ∨ c2.toNat = 49) with h | h
        · exact Or.inl (char_eq_of_toNat h)
        · exact Or.inr (char_eq_of_toNat h)
      refine List.mem_append.mpr (Or.inl (List.mem_append.mpr (Or.inl
        (List.mem_append.mpr (Or.inl ?_)))))
      rw [if_pos hcond]
      have : Birthday.natOfDigits ['3', c2] = 30 + Birthday.digitVal c2 := by
        rw [natOfDigits_pair, h3]
      rw [this]
      exact List.mem_singleton.mpr rfl
    · exfalso
      omega

theorem monthAlts_complete (ms rest : List Char)
    (hd : ms.all Char.isDigit = true) (hlen : ms.length = 1 ∨ ms.length = 2)
    (hlo : 1 ≤ Birthday.natOfDigits ms) (hhi : Birthday.natOfDigits ms ≤ 12) :
    (Birthday.natOfDigits ms, rest) ∈ Birthday.monthAlts (ms ++ rest) := by
  rcases hlen with hlen | hlen
  · obtain ⟨c1, hc⟩ := List.length_eq_one.mp hlen
    subst hc
    have hd1 : c1.isDigit = true := by simpa using hd
    have hb := isDigit_bounds c1 hd1
    have hv : Birthday.natOfDigits [c1] = c1.toNat - 48 := by
      rw [natOfDigits_single]
      rfl
    have hcond : '1' ≤ c1 ∧ c1 ≤ '9' :=
      ⟨show 49 ≤ c1.toNat by omega, show c1.toNat ≤ 57 by omega⟩
    cases rest with
    | nil =>
      simp only [List.nil_append, List.append_nil, Birthday.monthAlts,
        if_pos hcond]
      rw [natOfDigits_single]
      exact List.mem_singleton.mpr rfl
    | cons c2 rest0 =>
      simp only [List.cons_append, List.nil_append, List.append_nil,
        Birthday.monthAlts]
      refine List.mem_append.mpr (Or.inr ?_)
      rw [if_pos hcond, natOfDigits_single]
      exact List.mem_singleton.mpr rfl
  · obtain ⟨c1, c2, hc⟩ := List.length_eq_two.mp hlen
    subst hc
    have hd1 : c1.isDigit = true := by
      have := List.all_eq_true.mp hd c1 (by simp)
      exact this
    have hd2 : c2.isDigit = true := by
      have := List.all_eq_true.mp hd c2 (by simp)
      exact this
    have hb1 := isDigit_bounds c1 hd1
    have hb2 := isDigit_bounds c2 hd2
    have hdv1 : Birthday.digitVal c1 = c1.toNat - 48 := rfl
    have hdv2 : Birthday.digitVal c2 = c2.toNat - 48 := rfl
    rw [natOfDigits_pair] at hlo hhi
    simp only [List.cons_append, List.nil_append, Birthday.monthAlts]
    have hsplit : c1.toNat = 48 ∨ c1.toNat = 49 ∨ 50 ≤ c1.toNat := by omega
    rcases hsplit with ha | ha | ha
    · have hc1 : c1 = '0' := char_eq_of_toNat ha
      subst hc1
      have hc2b : 49 ≤ c2.toNat ∧ c2.toNat ≤ 57 := by
        constructor
        · omega
        · omega
      have hcond : ('0' : Char) = '0' ∧ ('1' ≤ c2 ∧ c2 ≤ '9') :=
        ⟨rfl, show 49 ≤ c2.toNat from hc2b.1, show c2.toNat ≤ 57 from hc2b.2⟩
      refine List.mem_append.mpr (Or.inl (List.mem_append.mpr (Or.inr ?_)))
      rw [if_pos hcond]
      have : Birthday.natOfDigits ['0', c2] = Birthday.digitVal c2 := by
        rw [natOfDigits_pair]
        have h0 : Birthday.digitVal '0' = 0 := rfl
        omega
      rw [this]
      exact List.mem_singleton.mpr rfl
    · have hc1 : c1 = '1' := char_eq_of_toNat ha
      subst hc1
      have h1 : Birthday.digitVal '1' = 1 := rfl
      have hc2b : c2.toNat ≤ 50 := by omega
      have hcond : ('1' : Char) = '1' ∧ ('0' ≤ c2 ∧ c2 ≤ '2') :=
        ⟨rfl, show 48 ≤ c2.toNat from hb2.1, show c2.toNat ≤ 50 from hc2b⟩
      refine List.mem_append.mpr (Or.inl (List.mem_append.mpr (Or.inl ?_)))
      rw [if_pos hcond]
      have : Birthday.natOfDigits ['1', c2] = 10 + Birthday.digitVal c2 := by
        rw [natOfDigits_pair, h1]
      rw [this]
      exact List.mem_singleton.mpr rfl
    · exfalso
      omega

theorem yearEnd_sound (cs : List Char) (y : Nat)
    (h : Birthday.yearEnd cs = some y) :
    cs.all Char.isDigit = true ∧ cs.length = 4 ∧
      Birthday.natOfDigits cs = y := by
  unfold Birthday.yearEnd at h
  split at h
  next a b c d =>
    split at h
    next hd =>
      injection h with hy
      refine ⟨?_, rfl, hy⟩
      simp [hd.1, hd.2.1, hd.2.2.1, hd.2.2.2]
    next => cases h
  next => cases h

theorem yearEnd_complete (cs : List Char) (hd : cs.all Char.isDigit = true)
    (hlen : cs.length = 4) :
    Birthday.yearEnd cs = some (Birthday.natOfDigits cs) := by
  match cs, hlen with
  | [a, b, c, d], _ =>
    simp only [List.all_cons, List.all_nil, Bool.and_true,
      Bool.and_eq_true] at hd
    show (if a.isDigit = true ∧ b.isDigit = true ∧ c.isDigit = true ∧
        d.isDigit = true then some (Birthday.natOfDigits [a, b, c, d])
      else none) = some (Birthday.natOfDigits [a, b, c, d])
    rw [if_pos ⟨hd.1, hd.2.1, hd.2.2.1, hd.2.2.2⟩]

theorem matchDMY_sound (cs : List Char) (d m y : Nat)
    (h : Birthday.matchDMY cs = some (d, m, y)) :
    ∃ ds ms ys, cs = ds ++ '.' :: (ms ++ '.' :: ys) ∧
      ds.all Char.isDigit = true ∧ (ds.length = 1 ∨ ds.length = 2) ∧
      Birthday.natOfDigits ds = d ∧ 1 ≤ d ∧ d ≤ 31 ∧
      ms.all Char.isDigit = true ∧ (ms.length = 1 ∨ ms.length = 2) ∧
      Birthday.natOfDigits ms = m ∧ 1 ≤ m ∧ m ≤ 12 ∧
      ys.all Char.isDigit = true ∧ ys.length = 4 ∧
      Birthday.natOfDigits ys = y := by
  unfold Birthday.matchDMY at h
  obtain ⟨dc, hdmem, hdf⟩ := firstSome_eq_some _ _ _ h
  obtain ⟨dv, drest⟩ := dc
  obtain ⟨ds, hds, hdd, hdl, hdn, hd1, hd31⟩ :=
    dayAlts_sound cs dv drest hdmem
  simp only at hdf
  split at hdf
  next unused1 cs2 =>
    obtain ⟨mc, hmmem, hmf⟩ := firstSome_eq_some _ _ _ hdf
    obtain ⟨mv, mrest⟩ := mc
    obtain ⟨ms, hms, hmd, hml, hmn, hm1, hm12⟩ :=
      monthAlts_sound cs2 mv mrest hmmem
    simp only at hmf
    split at hmf
    next unused2 cs3 =>
      cases hy : Birthday.yearEnd cs3 with
      | none => rw [hy] at hmf; cases hmf
      | some yv =>
        rw [hy] at hmf
        injection hmf with htrip
        obtain ⟨hyd, hyl, hyn⟩ := yearEnd_sound cs3 yv hy
        have h1 : dv = d := congrArg (fun t => t.1) htrip
        have h2 : mv = m := congrArg (fun t => t.2.1) htrip
        have h3 : yv = y := congrArg (fun t => t.2.2) htrip
        subst h1
        subst h2
        subst h3
        refine ⟨ds, ms, cs3, ?_, hdd, hdl, hdn, hd1, hd31, hmd, hml,
          hmn, hm1, hm12, hyd, hyl, hyn⟩
        rw [hds, hms]
    next => cases hmf
  next => cases hdf

theorem matchDMY_eq (ds ms ys : List Char)
    (hdd : ds.all Char.isDigit = true) (hdl : ds.length = 1 ∨ ds.length = 2)
    (hd1 : 1 ≤ Birthday.natOfDigits ds) (hd31 : Birthday.natOfDigits ds ≤ 31)
    (hmd : ms.all Char.isDigit = true) (hml : ms.length = 1 ∨ ms.length = 2)
    (hm1 : 1 ≤ Birthday.natOfDigits ms) (hm12 : Birthday.natOfDigits ms ≤ 12)
    (hyd : ys.all Char.isDigit = true) (hyl : ys.length = 4) :
    Birthday.matchDMY (ds ++ '.' :: (ms ++ '.' :: ys)) =
      some (Birthday.natOfDigits ds, Birthday.natOfDigits ms,
        Birthday.natOfDigits ys) := by
  have hdmem := dayAlts_complete ds ('.' :: (ms ++ '.' :: ys)) hdd hdl hd1 hd31
  have hmmem := monthAlts_complete ms ('.' :: ys) hmd hml hm1 hm12
  have hyend := yearEnd_complete ys hyd hyl
  have hgval : (fun mc : Nat × List Char =>
      match mc.2 with
      | '.' :: cs3 =>
        match Birthday.yearEnd cs3 with
        | some y => some (Birthday.natOfDigits ds, mc.1, y)
        | none => none
      | _ => none) (Birthday.natOfDigits ms, '.' :: ys) =
        some (Birthday.natOfDigits ds, Birthday.natOfDigits ms,
          Birthday.natOfDigits ys) := by
    show (match Birthday.yearEnd ys with
      | some y => some (Birthday.natOfDigits ds, Birthday.natOfDigits ms, y)
      | none => none) =
        some (Birthday.natOfDigits ds, Birthday.natOfDigits ms,
          Birthday.natOfDigits ys)
    rw [hyend]
  obtain ⟨z1, hz1⟩ := firstSome_isSome (Birthday.monthAlts (ms ++ '.' :: ys))
    (fun mc : Nat × List Char =>
      match mc.2 with
      | '.' :: cs3 =>
        match Birthday.yearEnd cs3 with
        | some y => some (Birthday.natOfDigits ds, mc.1, y)
        | none => none
      | _ => none)
    (Birthday.natOfDigits ms, '.' :: ys) _ hmmem hgval
  obtain ⟨z, hz⟩ := firstSome_isSome
    (Birthday.dayAlts (ds ++ '.' :: (ms ++ '.' :: ys)))
    (fun dc : Nat × List Char =>
      match dc.2 with
      | '.' :: cs2 =>
        Birthday.firstSome (Birthday.monthAlts cs2) fun mc =>
          match mc.2 with
          | '.' :: cs3 =>
            match Birthday.yearEnd cs3 with
            | some y => some (dc.1, mc.1, y)
            | none => none
          | _ => none
      | _ => none)
    (Birthday.natOfDigits ds, '.' :: (ms ++ '.' :: ys)) z1 hdmem hz1
  have hmz : Birthday.matchDMY (ds ++ '.' :: (ms ++ '.' :: ys)) = some z := hz
  obtain ⟨z1v, z2v, z3v⟩ := z
  obtain ⟨ds2, ms2, ys2, hsplit, hdd2, hdl2, hdn2, _, _, hmd2, hml2, hmn2,
    _, _, hyd2, hyl2, hyn2⟩ := matchDMY_sound _ z1v z2v z3v hmz
  have hu1 := dot_split_unique ds (ms ++ '.' :: ys) ds2 (ms2 ++ '.' :: ys2)
    hsplit (not_dot_of_digits ds hdd) (not_dot_of_digits ds2 hdd2)
  have hu2 := dot_split_unique ms ys ms2 ys2 hu1.2
    (not_dot_of_digits ms hmd) (not_dot_of_digits ms2 hmd2)
  rw [hmz, ← hdn2, ← hmn2, ← hyn2, ← hu1.1, ← hu2.1, ← hu2.2]

theorem daysInMonth_le_31 (y m : Nat) : daysInMonth y m ≤ 31 := by
  unfold daysInMonth
  split
  · split <;> omega
  · split <;> omega

theorem date_valid_bounds (d : Date) (h : d.valid = true) :
    1 ≤ d.year ∧ d.year ≤ 9999 ∧ 1 ≤ d.month ∧ d.month ≤ 12 ∧
      1 ≤ d.day ∧ d.day ≤ 31 := by
  unfold Date.valid at h
  simp only [Bool.and_eq_true, decide_eq_true_eq] at h
  refine ⟨h.1.1.1.1.1, h.1.1.1.1.2, h.1.1.1.2, h.1.1.2, h.1.2, ?_⟩
  exact le_trans h.2 (daysInMonth_le_31 d.year d.month)

theorem validate_ok_iff (s : String) :
    (∃ d, Birthday.validate s = Except.ok d) ↔ acceptsDMY s := by
  constructor
  · rintro ⟨d, hd⟩
    unfold Birthday.validate at hd
    cases hm : Birthday.matchDMY s.toList with
    | none => rw [hm] at hd; cases hd
    | some trip =>
      obtain ⟨dv, mv, yv⟩ := trip
      rw [hm] at hd
      simp only at hd
      by_cases hval : Date.valid ⟨yv, mv, dv⟩ = true
      · obtain ⟨ds, ms, ys, hsplit, hdd, hdl, hdn, hd1, hd31, hmd, hml,
          hmn, hm1, hm12, hyd, hyl, hyn⟩ := matchDMY_sound s.toList dv mv yv hm
        refine ⟨ds, ms, ys, hsplit, hdd, hdl, ?_, hmd, hml, ?_, hyd, hyl, ?_⟩
        · omega
        · omega
        · rw [hdn, hmn, hyn]
          exact hval
      · rw [if_neg hval] at hd
        cases hd
  · rintro ⟨ds, ms, ys, hsplit, hdd, hdl, hd1, hmd, hml, hm1, hyd, hyl, hval⟩
    have hb := date_valid_bounds _ hval
    have heq := matchDMY_eq ds ms ys hdd hdl hd1 hb.2.2.2.2.2 hmd hml hm1
      hb.2.2.2.1 hyd hyl
    refine ⟨⟨Birthday.natOfDigits ys, Birthday.natOfDigits ms,
      Birthday.natOfDigits ds⟩, ?_⟩
    unfold Birthday.validate
    rw [hsplit, heq]
    simp only [hval, if_true]

theorem toDigitsCore_fuel (fuel1 : Nat) : ∀ (fuel2 n : Nat) (ds : List Char),
    n < fuel1 → n < fuel2 →
    Nat.toDigitsCore 10 fuel1 n ds = Nat.toDigitsCore 10 fuel2 n ds := by
  induction fuel1 with
  | zero => intro fuel2 n ds h1 h2; omega
  | succ f ih =>
    intro fuel2 n ds h1 h2
    cases fuel2 with
    | zero => omega
    | succ f2 =>
      simp only [Nat.toDigitsCore]
      by_cases hz : n / 10 = 0
      · simp [hz]
      · simp only [hz, if_false]
        have hlt : n / 10 < n := Nat.div_lt_self (by omega) (by omega)
        exact ih f2 (n / 10) _ (by omega) (by omega)

theorem toDigitsCore_acc (fuel : Nat) : ∀ (n : Nat) (ds : List Char),
    Nat.toDigitsCore 10 fuel n ds = Nat.toDigitsCore 10 fuel n [] ++ ds := by
  induction fuel with
  | zero => intro n ds; simp [Nat.toDigitsCore]
  | succ f ih =>
    intro n ds
    simp only [Nat.toDigitsCore]
    by_cases hz : n / 10 = 0
    · simp [hz]
    · simp only [hz, if_false]
      rw [ih (n / 10) ((n % 10).digitChar :: ds),
        ih (n / 10) [(n % 10).digitChar]]
      simp

theorem toDigits_shift (n d : Nat) (hn : n ≠ 0) (hd : d < 10) :
    Nat.toDigits 10 (10 * n + d) = Nat.toDigits 10 n ++ [Nat.digitChar d] := by
  unfold Nat.toDigits
  have h1 : (10 * n + d) % 10 = d := by omega
  have h2 : (10 * n + d) / 10 = n := by omega
  show Nat.toDigitsCore 10 (10 * n + d + 1) (10 * n + d) [] =
    Nat.toDigitsCore 10 (n + 1) n []  ++ [Nat.digitChar d]
  rw [show (10 * n + d + 1) = (10 * n + d) + 1 from rfl]
  simp only [Nat.toDigitsCore]
  rw [h1, h2, if_neg hn, toDigitsCore_acc]
  congr 1
  exact toDigitsCore_fuel (10 * n + d) (n + 1) n [] (by omega) (by omega)

theorem toDigits_single (a : Nat) (h : a < 10) :
    Nat.toDigits 10 a = [Nat.digitChar a] := by
  unfold Nat.toDigits
  simp only [Nat.toDigitsCore]
  have hz : a / 10 = 0 := by omega
  rw [hz]
  simp [Nat.mod_eq_of_lt h]

theorem toString_nat_eq (n : Nat) :
    toString n = String.mk (Nat.toDigits 10 n) := rfl

theorem fmt2_pair (c1 c2 : Char) (h1 : c1.isDigit = true)
    (h2 : c2.isDigit = true) :
    fmt2 (Birthday.natOfDigits [c1, c2]) = String.mk [c1, c2] := by
  obtain ⟨hc1, ha⟩ := digit_char_eq c1 h1
  obtain ⟨hc2, hb⟩ := digit_char_eq c2 h2
  rw [natOfDigits_pair]
  by_cases haz : Birthday.digitVal c1 = 0
  · rw [haz]
    simp only [Nat.mul_zero, Nat.zero_add]
    unfold fmt2
    rw [if_pos hb, toString_nat_eq, toDigits_single _ hb,
      digitChar_ofNat _ hb, ← hc2]
    have hc10 : c1 = '0' := by
      rw [hc1, haz]
    rw [hc10]
    rfl
  · have hge : ¬(10 * Birthday.digitVal c1 + Birthday.digitVal c2 < 10) := by
      omega
    unfold fmt2
    rw [if_neg hge, toString_nat_eq, toDigits_shift _ _ (by omega) hb,
      toDigits_single _ ha, digitChar_ofNat _ ha, digitChar_ofNat _ hb,
      ← hc1, ← hc2]
    rfl

theorem toString_four (c1 c2 c3 c4 : Char)
    (h1 : c1.isDigit = true) (h2 : c2.isDigit = true)
    (h3 : c3.isDigit = true) (h4 : c4.isDigit = true)
    (hlead : 1 ≤ Birthday.digitVal c1) :
    toString (Birthday.natOfDigits [c1, c2, c3, c4]) =
      String.mk [c1, c2, c3, c4] := by
  obtain ⟨hc1, ha⟩ := digit_char_eq c1 h1
  obtain ⟨hc2, hb⟩ := digit_char_eq c2 h2
  obtain ⟨hc3, hc⟩ := digit_char_eq c3 h3
  obtain ⟨hc4, hd⟩ := digit_char_eq c4 h4
  rw [natOfDigits_four, toString_nat_eq]
  rw [toDigits_shift _ _ (by omega) hd]
  rw [toDigits_shift _ _ (by omega) hc]
  rw [toDigits_shift _ _ (by omega) hb]
  rw [toDigits_single _ ha]
  rw [digitChar_ofNat _ ha, digitChar_ofNat _ hb, digitChar_ofNat _ hc,
    digitChar_ofNat _ hd, ← hc1, ← hc2, ← hc3, ← hc4]
  rfl

/-! ## Claim theorems: birthday validation (C4) -/

/-- C4 counterexample: `strptime`'s `%d` also accepts a 1-digit day
(its regex group allows `[1-9]`), so `"1.01.2000"` is accepted although
it does not match the claimed DD.MM.YYYY pattern — and re-formatting the
parsed date produces `"01.01.2000"`, not the input. -/
theorem birthday_validate_one_digit_day :
    Birthday.validate "1.01.2000" = Except.ok ⟨2000, 1, 1⟩ ∧
    specPatternDDMMYYYY "1.01.2000" = false ∧
    strftimeDMY ⟨2000, 1, 1⟩ = "01.01.2000" :=
  ⟨rfl, rfl, rfl⟩

/-- C4 amended: `validate_birthday(s)` succeeds iff s is
day.month.year with a 1- or 2-digit day, a 1- or 2-digit month and an
exactly 4-digit year, all digits, denoting a real calendar date; and
re-formatting the parsed date with `%d.%m.%Y` reproduces s exactly when
s is written with 2-digit day and month and the year has no leading
zero. -/
theorem birthday_validate_characterization (s : String) :
    ((∃ d, Birthday.validate s = Except.ok d) ↔ acceptsDMY s) ∧
    (∀ d, Birthday.validate s = Except.ok d →
      specPatternDDMMYYYY s = true → 1000 ≤ d.year → strftimeDMY d = s) := by
  refine ⟨validate_ok_iff s, ?_⟩
  intro d hd hpat hy
  unfold specPatternDDMMYYYY at hpat
  split at hpat
  next d1 d2 m1 m2 y1 y2 y3 y4 heq =>
    rw [Bool.and_eq_true] at hpat
    obtain ⟨hall, hval⟩ := hpat
    simp only [List.all_cons, List.all_nil, Bool.and_true,
      Bool.and_eq_true] at hall
    obtain ⟨hd1, hd2, hm1, hm2, hy1, hy2, hy3, hy4⟩ := hall
    have hb := date_valid_bounds _ hval
    have hmatch := matchDMY_eq [d1, d2] [m1, m2] [y1, y2, y3, y4]
      (by simp [hd1, hd2]) (Or.inr rfl)
      hb.2.2.2.2.1 hb.2.2.2.2.2
      (by simp [hm1, hm2]) (Or.inr rfl)
      (by exact hb.2.2.1) hb.2.2.2.1
      (by simp [hy1, hy2, hy3, hy4]) rfl
    unfold Birthday.validate at hd
    rw [heq] at hd
    have heq2 : ([d1, d2, '.', m1, m2, '.', y1, y2, y3, y4] : List Char) =
        [d1, d2] ++ '.' :: ([m1, m2] ++ '.' :: [y1, y2, y3, y4]) := rfl
    rw [heq2, hmatch] at hd
    simp only [hval, if_true] at hd
    have hdval : d = ⟨Birthday.natOfDigits [y1, y2, y3, y4],
        Birthday.natOfDigits [m1, m2], Birthday.natOfDigits [d1, d2]⟩ := by
      cases hd
      rfl
    subst hdval
    unfold strftimeDMY
    simp only
    rw [fmt2_pair d1 d2 hd1 hd2, fmt2_pair m1 m2 hm1 hm2]
    rw [toString_four y1 y2 y3 y4 hy1 hy2 hy3 hy4 ?hlead]
    case hlead =>
      have hb1 := (digit_char_eq y1 hy1).2
      have hb2 := (digit_char_eq y2 hy2).2
      have hb3 := (digit_char_eq y3 hy3).2
      have hb4 := (digit_char_eq y4 hy4).2
      have hy4n : 1000 ≤ Birthday.natOfDigits [y1, y2, y3, y4] := hy
      rw [natOfDigits_four] at hy4n
      omega
    have hfin : String.mk [d1, d2] ++ "." ++ String.mk [m1, m2] ++ "." ++
        String.mk [y1, y2, y3, y4] =
        String.mk [d1, d2, '.', m1, m2, '.', y1, y2, y3, y4] := rfl
    rw [hfin, ← heq]
    rfl
  next => cases hpat

/-- Witness for the amended C4 at the string "25.06.1990": accepted, and
re-formatting reproduces it. -/
theorem birthday_validate_characterization_witness :
    (∃ d, Birthday.validate "25.06.1990" = Except.ok d) ∧
    strftimeDMY ⟨1990, 6, 25⟩ = "25.06.1990" := by
  have h := birthday_validate_characterization "25.06.1990"
  constructor
  · exact h.1.mpr ⟨['2', '5'], ['0', '6'], ['1', '9', '9', '0'], rfl,
      by decide, Or.inr rfl, by decide, by decide, Or.inr rfl, by decide,
      by decide, rfl, by decide⟩
  · exact h.2 ⟨1990, 6, 25⟩ rfl (by decide) (by decide)
